import Mathlib

/-!
Verification of the eBanglaLibrary-to-EPUB application (`src/app.py`) against its
natural-language specification.

The development shallowly embeds the pure core of the program: URL normalization
(`_clean_link`, `_same_domain`, the stdlib `urljoin`/`urldefrag` subset the app
relies on), chapter-link discovery (`extract_lessons_from_book_page`,
`discover_links` with its BFS fallback), book-index discovery
(`discover_books_from_index` and its path classifiers), title/author parsing
(`parse_title_author_from_html`), filesystem-safe naming
(`fs_safe_basename_from_title`), the HTML sanitization pipeline
(`sanitize_article_html`, `strip_redundant_headings`) over an explicit HTML tree,
the scored-container content extractor (`extract_content` fallback tiers), and
the cover-image heuristic (`extract_cover_image`).

String-valued data is modelled over `List Char` so that every definition is
executable by kernel reduction.  Fetching is modelled as an explicit function
from URL to an optional parsed page; network failure is `none`.
-/

namespace EBanglaEpub

/-! ### Python string primitives (ASCII whitespace subset) -/

/-- Python `str.strip` whitespace characters (the ASCII subset; the app only
ever strips ASCII/Bengali page text where non-ASCII whitespace does not occur). -/
def pyIsSpace (c : Char) : Bool :=
  c = ' ' || c = '\t' || c = '\n' || c = '\r' || c = '\x0b' || c = '\x0c'

/-- Drop trailing characters satisfying `p` (Python `str.rstrip`). -/
def rstripOn (p : Char → Bool) (l : List Char) : List Char :=
  (l.reverse.dropWhile p).reverse

/-- Python `str.strip()` on a character list. -/
def pyStripL (l : List Char) : List Char :=
  rstripOn pyIsSpace (l.dropWhile pyIsSpace)

/-- Python `str.strip()` on strings. -/
def pyStrip (s : String) : String :=
  (pyStripL s.toList).asString

/-- Lowercase a character list (Python `str.lower`; `Char.toLower` only maps
ASCII letters, leaving Bengali text unchanged, as the app expects). -/
def lowerL (l : List Char) : List Char :=
  l.map Char.toLower

/-- Substring containment test (Python `in` on strings). -/
def subAt (needle : List Char) : List Char → Bool
  | [] => needle = []
  | a :: rest => needle.isPrefixOf (a :: rest) || subAt needle rest

/-- Containment of `needle` in `hay` at string level. -/
def containsSub (hay needle : String) : Bool :=
  subAt needle.toList hay.toList

/-- Case-insensitive search of any of the (already lowercase) patterns inside
`hay`, mirroring `re.search(p1|p2|...,  hay, re.I)` for literal alternations. -/
def lowerContainsAny (hay : String) (pats : List String) : Bool :=
  pats.any (fun p => subAt p.toList (lowerL hay.toList))

/-- List `endsWith` (Python `str.endswith`). -/
def endsWithL (l suffix : List Char) : Bool :=
  suffix.reverse.isPrefixOf l.reverse

/-- Python `str.startswith` at character-list level. -/
def startsWithL (l pre : List Char) : Bool :=
  pre.isPrefixOf l

/-- Python `s or None`: empty strings become `None`. -/
def strOrNone (s : String) : Option String :=
  if s = "" then none else some s

/-- Stable insertion used by the stable sort model of Python `list.sort`. -/
def stableInsert {α : Type} (le : α → α → Bool) (x : α) : List α → List α
  | [] => [x]
  | y :: ys => if le x y then x :: y :: ys else y :: stableInsert le x ys

/-- Stable sort (model of Python `list.sort`, which is stable); an element is
inserted before the first element it compares `le` to, so equal keys keep
their original relative order. -/
def stableSort {α : Type} (le : α → α → Bool) : List α → List α
  | [] => []
  | x :: xs => stableInsert le x (stableSort le xs)

/-- Lexicographic code-point order on character lists (Python `str` order). -/
def listLt : List Char → List Char → Bool
  | [], [] => false
  | [], _ :: _ => true
  | _ :: _, [] => false
  | a :: as, b :: bs => a.toNat < b.toNat || (a = b && listLt as bs)

/-! ### URL model

The app uses `urllib.parse`'s `urljoin`, `urldefrag`, `urlparse` and `unquote`.
These are modelled for the URL shapes the app actually handles: absolute
`scheme://netloc/path?query#fragment` URLs and root-relative, fragment, query
or plain relative references.  (The stdlib's merging of a relative path with a
same-scheme `scheme:path` reference and dot-segment removal are outside the
modelled subset.) -/

/-- Characters allowed inside a URL scheme. -/
def validSchemeChar (c : Char) : Bool :=
  c.isAlphanum || c = '+' || c = '-' || c = '.'

/-- Split a leading `scheme:` off a URL, if present (model of the scheme
detection in `urllib.parse.urlparse`). -/
def schemeSplit (l : List Char) : Option (List Char × List Char) :=
  match l.drop (l.takeWhile validSchemeChar).length with
  | ':' :: r => if (l.takeWhile validSchemeChar).isEmpty then none else some (l.takeWhile validSchemeChar, r)
  | _ => none

/-- Characters terminating the network-location component. -/
def netChar (c : Char) : Bool :=
  !(c = '/' || c = '?' || c = '#')

/-- Split a leading `//netloc` off the remainder of a URL, if present. -/
def netSplit (l : List Char) : Option (List Char × List Char) :=
  match l with
  | '/' :: '/' :: r => some (r.takeWhile netChar, r.drop (r.takeWhile netChar).length)
  | _ => none

/-- Everything after the scheme of a URL (the whole URL when there is none). -/
def restOf (u : String) : List Char :=
  match schemeSplit u.toList with
  | some (_, r) => r
  | none => u.toList

/-- Scheme of a URL, if present (`urlparse(u).scheme`). -/
def schemeOf (u : String) : Option (List Char) :=
  (schemeSplit u.toList).map (fun p => p.1)

/-- Network location of a URL (`urlparse(u).netloc`; empty when absent). -/
def netlocOf (u : String) : List Char :=
  match netSplit (restOf u) with
  | some (n, _) => n
  | none => []

/-- Remainder of a URL after scheme and netloc. -/
def pathRestOf (u : String) : List Char :=
  match netSplit (restOf u) with
  | some (_, r) => r
  | none => restOf u

/-- Path component of a URL (`urlparse(u).path`). -/
def pathOnly (u : String) : List Char :=
  (pathRestOf u).takeWhile (fun c => !(c = '?' || c = '#'))

/-- Root (`scheme://netloc`, or `//netloc`, or empty) of a URL, used when
resolving root-relative references. -/
def rootOf (u : String) : String :=
  match schemeSplit u.toList with
  | some (s, r) =>
    match netSplit r with
    | some (n, _) => s.asString ++ "://" ++ n.asString
    | none => s.asString ++ ":"
  | none =>
    match netSplit u.toList with
    | some (n, _) => "//" ++ n.asString
    | none => ""

/-- Directory part of a path: everything up to and including the last slash. -/
def dirOfPath (p : List Char) : List Char :=
  (p.reverse.dropWhile (fun c => c ≠ '/')).reverse

/-- Strip the fragment off a URL string (everything from the first hash on). -/
def stripFragment (u : String) : String :=
  (u.toList.takeWhile (fun c => c ≠ '#')).asString

/-- Model of `urllib.parse.urljoin` for the reference shapes the app meets:
references with their own scheme, network-relative, root-relative, fragment,
query, and plain relative references. -/
def urljoin (base url : String) : String :=
  if url = "" then base
  else if (schemeSplit url.toList).isSome then url
  else
    match url.toList with
    | '/' :: '/' :: _ =>
      match schemeSplit base.toList with
      | some (s, _) => s.asString ++ ":" ++ url
      | none => url
    | '/' :: _ => rootOf base ++ url
    | '#' :: _ => stripFragment base ++ url
    | '?' :: _ => rootOf base ++ (pathOnly base).asString ++ url
    | _ =>
      let d := dirOfPath (pathOnly base)
      rootOf base ++ (if d.isEmpty then "/" else d.asString) ++ url

/-- Model of `urllib.parse.urldefrag` (the URL part only). -/
def urldefrag (u : String) : String :=
  stripFragment u

/-- Extensions rejected by the asset filter of `_clean_link`
(`\.(jpg|jpeg|png|gif|svg|pdf|zip|rar|7z|mp3|mp4|avi|webm)(?:\?|$)`). -/
def assetExts : List String :=
  ["jpg", "jpeg", "png", "gif", "svg", "pdf", "zip", "rar", "7z", "mp3", "mp4", "avi", "webm"]

/-- Case-insensitive search for an asset extension followed by a query mark or
the end of the URL, mirroring the regex in `_clean_link`. -/
def assetLike (u : String) : Bool :=
  assetExts.any (fun e =>
    endsWithL (lowerL u.toList) ('.' :: e.toList) ||
    subAt ('.' :: e.toList ++ ['?']) (lowerL u.toList))

/-- Model of `_clean_link`: resolve `href` against `base_url` to an absolute
URL, strip the fragment, and reject `mailto:`/`tel:` references and non-HTML
assets. -/
def clean_link (base_url href : String) : Option String :=
  if href = "" then none
  else if startsWithL href.toList "mailto:".toList || startsWithL href.toList "tel:".toList then none
  else
    let u := urldefrag (urljoin base_url href)
    if assetLike u then none else some u

/-- Model of `_same_domain`: equality of the two network locations. -/
def same_domain (u1 u2 : String) : Bool :=
  netlocOf u1 = netlocOf u2

/-! ### Link discovery

A fetched-and-parsed page is modelled, for discovery purposes, as the list of
the `href` attributes of its anchors in document order (`soup.find_all("a",
href=True)`).  The fetcher is a function from URL to an optional such page;
`none` models a network/HTTP failure raised by `fetch_html`. -/

/-- Fetcher model: URL to anchor `href` list, `none` on failure. -/
def Web : Type := String → Option (List String)

/-- Loop of `extract_lessons_from_book_page`: keep anchors whose raw `href`
contains `/lessons/` or `/topics/`, resolve them with `_clean_link`, keep only
same-domain results, and de-duplicate preserving first appearance (`seen` holds
the URLs already emitted). -/
def extractLessonsGo (start_url : String) (seen : List String) : List String → List String
  | [] => []
  | href :: rest =>
    if !(containsSub href "/lessons/" || containsSub href "/topics/") then
      extractLessonsGo start_url seen rest
    else
      match clean_link start_url href with
      | none => extractLessonsGo start_url seen rest
      | some abs_link =>
        if !same_domain start_url abs_link then extractLessonsGo start_url seen rest
        else if abs_link ∈ seen then extractLessonsGo start_url seen rest
        else abs_link :: extractLessonsGo start_url (abs_link :: seen) rest

/-- Model of `extract_lessons_from_book_page` applied to the anchors of the
start page. -/
def extract_lessons_from_book_page (start_url : String) (anchors : List String) : List String :=
  extractLessonsGo start_url [] anchors

/-- Admissibility filter shared by the BFS collect and enqueue loops of
`discover_links`: domain filter (unless outside domains are allowed) against
the start URL, then the optional include and exclude regexes (modelled as
predicates). -/
def navLinkAdmissible (start_url : String) (allow_outside : Bool)
    (include_re exclude_re : Option (String → Bool)) (link : String) : Bool :=
  (allow_outside || same_domain start_url link) &&
  (match include_re with
   | some f => f link
   | none => true) &&
  (match exclude_re with
   | some f => !f link
   | none => true)

/-- Collect loop of the BFS in `discover_links`: each admissible cleaned link
of the current page is appended to `found` unless already present. -/
def collectGo (start_url : String) (allow_outside : Bool)
    (include_re exclude_re : Option (String → Bool)) (page_url : String)
    (found : List String) : List String → List String
  | [] => found
  | href :: rest =>
    match clean_link page_url href with
    | none => collectGo start_url allow_outside include_re exclude_re page_url found rest
    | some link =>
      if navLinkAdmissible start_url allow_outside include_re exclude_re link then
        if link ∈ found then
          collectGo start_url allow_outside include_re exclude_re page_url found rest
        else
          collectGo start_url allow_outside include_re exclude_re page_url (found ++ [link]) rest
      else collectGo start_url allow_outside include_re exclude_re page_url found rest

/-- Neighbor-enqueue loop of the BFS in `discover_links`: admissible cleaned
links not yet visited are enqueued, at most 50 per page. -/
def enqueueGo (start_url : String) (allow_outside : Bool)
    (include_re exclude_re : Option (String → Bool)) (page_url : String)
    (visited : List String) (cnt : Nat) : List String → List String
  | [] => []
  | href :: rest =>
    match clean_link page_url href with
    | none => enqueueGo start_url allow_outside include_re exclude_re page_url visited cnt rest
    | some link =>
      if link ∈ visited then
        enqueueGo start_url allow_outside include_re exclude_re page_url visited cnt rest
      else if navLinkAdmissible start_url allow_outside include_re exclude_re link then
        link ::
          (if 50 ≤ cnt + 1 then []
           else enqueueGo start_url allow_outside include_re exclude_re page_url visited (cnt + 1) rest)
      else enqueueGo start_url allow_outside include_re exclude_re page_url visited cnt rest

/-- Main loop of the BFS fallback of `discover_links`.  The queue holds
`(url, depth)` pairs; a page is fetched at most once (`visited`); the loop
stops when the queue empties or the visited count reaches `max_pages`.
Returns the collected links and the visited (fetched) pages. -/
def bfsGo (web : Web) (start_url : String) (allow_outside : Bool)
    (include_re exclude_re : Option (String → Bool)) (max_depth max_pages : Nat) :
    List (String × Nat) → List String → List String → List String × List String
  | [], visited, found => (found, visited)
  | (url, depth) :: queue, visited, found =>
    if max_pages ≤ visited.length then (found, visited)
    else if url ∈ visited then
      bfsGo web start_url allow_outside include_re exclude_re max_depth max_pages queue visited found
    else
      match web url with
      | none =>
        bfsGo web start_url allow_outside include_re exclude_re max_depth max_pages
          queue (url :: visited) found
      | some anchors =>
        bfsGo web start_url allow_outside include_re exclude_re max_depth max_pages
          (if depth < max_depth then
            queue ++ (enqueueGo start_url allow_outside include_re exclude_re url
              (url :: visited) 0 anchors).map (fun l => (l, depth + 1))
           else queue)
          (url :: visited)
          (collectGo start_url allow_outside include_re exclude_re url found anchors)
termination_by queue visited _ => (max_pages - visited.length, queue.length)
decreasing_by
  · apply Prod.Lex.right
    simp only [List.length_cons]
    omega
  · apply Prod.Lex.left
    simp only [List.length_cons]
    omega
  · apply Prod.Lex.left
    simp only [List.length_cons]
    omega

/-- Sort key order of the BFS result: path length ascending, then the URL
string itself (Python sorts by the key tuple `(len(path), u)`). -/
def urlSortLe (u v : String) : Bool :=
  (pathOnly u).length < (pathOnly v).length ||
    ((pathOnly u).length = (pathOnly v).length && !listLt v.toList u.toList)

/-- BFS fallback of `discover_links`: run the crawl from the start URL, drop
the start page from the results, sort by (path length, URL) and truncate.
Also exposes the visited (fetched) page set for the resource-bound claims. -/
def discover_links_bfs (web : Web) (start_url : String) (max_depth : Nat)
    (allow_outside : Bool) (include_re exclude_re : Option (String → Bool))
    (max_pages : Nat) : List String × List String :=
  match bfsGo web start_url allow_outside include_re exclude_re max_depth max_pages
      [(start_url, 0)] [] [] with
  | (found, visited) =>
    (((stableSort urlSortLe (found.filter (fun u => u ≠ start_url))).take max_pages), visited)

/-- Model of `discover_links`.  Phase 1 fetches the start page and extracts
lesson links directly; when that yields anything the (regex- and
domain-filtered, truncated) list is returned.  Otherwise, or when the start
fetch fails, the BFS fallback runs. -/
def discover_links (web : Web) (start_url : String) (max_depth : Nat)
    (allow_outside : Bool) (include_re exclude_re : Option (String → Bool))
    (max_pages : Nat) : List String :=
  match web start_url with
  | some anchors =>
    match extract_lessons_from_book_page start_url anchors with
    | [] =>
      (discover_links_bfs web start_url max_depth allow_outside include_re exclude_re max_pages).1
    | l1 :: ls =>
      let lessons := l1 :: ls
      let lessons :=
        match include_re with
        | some f => lessons.filter f
        | none => lessons
      let lessons :=
        match exclude_re with
        | some f => lessons.filter (fun u => !f u)
        | none => lessons
      let lessons :=
        if allow_outside then lessons else lessons.filter (fun u => same_domain start_url u)
      lessons.take max_pages
  | none =>
    (discover_links_bfs web start_url max_depth allow_outside include_re exclude_re max_pages).1

/-! ### Book-index discovery -/

/-- Hexadecimal digit value, for percent-decoding. -/
def hexVal (c : Char) : Option Nat :=
  let n := c.toNat
  if 48 ≤ n && n ≤ 57 then some (n - 48)
  else if 97 ≤ n && n ≤ 102 then some (n - 87)
  else if 65 ≤ n && n ≤ 70 then some (n - 55)
  else none

/-- Percent-decoding (model of `urllib.parse.unquote`; single-byte escapes,
which is all the path classifiers below need to see through). -/
def unquoteL : List Char → List Char
  | [] => []
  | '%' :: a :: b :: rest =>
    match hexVal a, hexVal b with
    | some x, some y => Char.ofNat (16 * x + y) :: unquoteL rest
    | _, _ => '%' :: unquoteL (a :: b :: rest)
  | c :: rest => c :: unquoteL rest

/-- Decoded path of a URL (`unquote(urlparse(link).path or "")`). -/
def pathDecOf (u : String) : String :=
  (unquoteL (pathOnly u)).asString

/-- Accepts `<digits>` or `<digits>/` with at least one digit, the tail of a
pagination segment. -/
def digitsTail (r : List Char) : Bool :=
  !(r.takeWhile Char.isDigit).isEmpty &&
    (r.drop (r.takeWhile Char.isDigit).length = [] || r.drop (r.takeWhile Char.isDigit).length = ['/'])

/-- Accepts `page/<n>` or `page/<n>/`. -/
def paginationTail (r : List Char) : Bool :=
  match r with
  | 'p' :: 'a' :: 'g' :: 'e' :: '/' :: rest => digitsTail rest
  | _ => false

/-- Accepts the empty tail or a pagination tail, i.e. the
`(?:page/\d+/?)?$` part of the index-path regexes. -/
def indexTail (r : List Char) : Bool :=
  r.isEmpty || paginationTail r

/-- Model of `_is_books_index_path`: `^/books/(?:page/\d+/?)?$`. -/
def is_books_index_path (p : String) : Bool :=
  match p.toList with
  | '/' :: 'b' :: 'o' :: 'o' :: 'k' :: 's' :: '/' :: r => indexTail r
  | _ => false

/-- Model of `_is_authors_index_path`: `^/authors/(?:page/\d+/?)?$`. -/
def is_authors_index_path (p : String) : Bool :=
  match p.toList with
  | '/' :: 'a' :: 'u' :: 't' :: 'h' :: 'o' :: 'r' :: 's' :: '/' :: r => indexTail r
  | _ => false

/-- Model of `_is_index_path`. -/
def is_index_path (p : String) : Bool :=
  is_books_index_path p || is_authors_index_path p

/-- Model of `_is_author_detail_index_path`:
`^/authors/[^/]+/(?:page/\d+/?)?$` — an author-detail page, optionally
paginated, for any author slug. -/
def is_author_detail_index_path (p : String) : Bool :=
  match p.toList with
  | '/' :: 'a' :: 'u' :: 't' :: 'h' :: 'o' :: 'r' :: 's' :: '/' :: r =>
    !(r.takeWhile (fun c => c ≠ '/')).isEmpty &&
      (match r.drop (r.takeWhile (fun c => c ≠ '/')).length with
       | '/' :: r2 => indexTail r2
       | _ => false)
  | _ => false

/-- Model of `_looks_like_book_page_path`: the decoded path contains
`/books/`, or matches the regex `/book(?:s)?/`. -/
def looks_like_book_page_path (p : String) : Bool :=
  if containsSub p "/books/" then true
  else containsSub p "/book/" || containsSub p "/books/"

/-- Book-collecting loop of `discover_books_from_index`: same-domain cleaned
links whose decoded path looks like a book page and is not itself a books
index are appended (de-duplicated); collection stops once `max_books` is
reached. -/
def collectBooksGo (index_url page_url : String) (max_books : Nat)
    (found : List String) : List String → List String
  | [] => found
  | href :: rest =>
    match clean_link page_url href with
    | none => collectBooksGo index_url page_url max_books found rest
    | some link =>
      if !same_domain index_url link then
        collectBooksGo index_url page_url max_books found rest
      else if !looks_like_book_page_path (pathDecOf link) then
        collectBooksGo index_url page_url max_books found rest
      else if is_books_index_path (pathDecOf link) then
        collectBooksGo index_url page_url max_books found rest
      else if link ∈ found then
        collectBooksGo index_url page_url max_books found rest
      else if max_books ≤ (found ++ [link]).length then found ++ [link]
      else collectBooksGo index_url page_url max_books (found ++ [link]) rest

/-- Pagination/index-neighbor loop of `discover_books_from_index`.  When the
run started from an author-detail page, a neighbor is followed iff its decoded
path is an author-detail page (of any author — this is what the code checks);
otherwise index pages and author-detail pages are followed.  Already-visited
pages are not enqueued. -/
def enqueueBooksGo (index_url page_url : String) (starting_author_detail : Bool)
    (visited : List String) : List String → List String
  | [] => []
  | href :: rest =>
    match clean_link page_url href with
    | none => enqueueBooksGo index_url page_url starting_author_detail visited rest
    | some link =>
      if !same_domain index_url link then
        enqueueBooksGo index_url page_url starting_author_detail visited rest
      else
        if (if starting_author_detail then is_author_detail_index_path (pathDecOf link)
            else is_index_path (pathDecOf link) || is_author_detail_index_path (pathDecOf link))
            && link ∉ visited then
          link :: enqueueBooksGo index_url page_url starting_author_detail visited rest
        else enqueueBooksGo index_url page_url starting_author_detail visited rest

/-- Main loop of `discover_books_from_index`: a BFS over index-like pages.
Stops when the queue empties, the visited index-page count reaches
`max_index_pages`, or the book count reaches `max_books`.  Returns the
collected book links and the visited index pages. -/
def discoverBooksGo (web : Web) (index_url : String) (starting_author_detail : Bool)
    (max_books max_index_pages : Nat) :
    List String → List String → List String → List String × List String
  | [], visited, found => (found, visited)
  | page_url :: queue, visited, found =>
    if max_index_pages ≤ visited.length ∨ max_books ≤ found.length then (found, visited)
    else if page_url ∈ visited then
      discoverBooksGo web index_url starting_author_detail max_books max_index_pages
        queue visited found
    else
      match web page_url with
      | none =>
        discoverBooksGo web index_url starting_author_detail max_books max_index_pages
          queue (page_url :: visited) found
      | some anchors =>
        discoverBooksGo web index_url starting_author_detail max_books max_index_pages
          (if (page_url :: visited).length < max_index_pages then
            queue ++ enqueueBooksGo index_url page_url starting_author_detail
              (page_url :: visited) anchors
           else queue)
          (page_url :: visited)
          (collectBooksGo index_url page_url max_books found anchors)
termination_by queue visited _ => (max_index_pages - visited.length, queue.length)
decreasing_by
  · apply Prod.Lex.right
    simp only [List.length_cons]
    omega
  · apply Prod.Lex.left
    simp only [List.length_cons]
    omega
  · apply Prod.Lex.left
    simp only [List.length_cons]
    omega

/-- Model of `discover_books_from_index`, exposing also the visited index
pages (needed to state which pages the traversal followed). -/
def discover_books_core (web : Web) (index_url : String)
    (max_books max_index_pages : Nat) : List String × List String :=
  discoverBooksGo web index_url (is_author_detail_index_path (pathDecOf index_url))
    max_books max_index_pages [index_url] [] []

/-- Model of `discover_books_from_index` (the returned book list). -/
def discover_books_from_index (web : Web) (index_url : String)
    (max_books max_index_pages : Nat) : List String :=
  (discover_books_core web index_url max_books max_index_pages).1.take max_books

/-! ### Title/author metadata parsing -/

/-- View of a page as `parse_title_author_from_html` reads it:
`titleString` is `soup.title.string` (absent when there is no `<title>` or it
has no single string child), `h1Text` is the first `h1`'s text (as
`get_text(strip=True)` returns it), absent when there is no `h1`. -/
structure TitlePage where
  titleString : Option String
  h1Text : Option String

/-- Raw title choice of `parse_title_author_from_html`: the stripped
`<title>` string when present and non-empty (Python truthiness), else the
first `h1`'s stripped text. -/
def rawTitleOf (p : TitlePage) : Option String :=
  match p.titleString with
  | some t => if t = "" then p.h1Text.map pyStrip else some (pyStrip t)
  | none => p.h1Text.map pyStrip

/-- First match of the separator regex `\s[-–]\s` (a dash or en-dash with one
whitespace character on each side): the characters before the match and the
characters after it, mirroring `re.split(..., maxsplit=1)`. -/
def splitDashL : List Char → Option (List Char × List Char)
  | a :: b :: c :: rest =>
    if pyIsSpace a && (b = '-' || b = '–') && pyIsSpace c then some ([], rest)
    else
      match splitDashL (b :: c :: rest) with
      | some (pre, post) => some (a :: pre, post)
      | none => none
  | _ => none

/-- Model of `parse_title_author_from_html`: returns
`(raw_full_title, title_only, author)`. -/
def parse_title_author_from_html (p : TitlePage) :
    Option String × Option String × Option String :=
  match rawTitleOf p with
  | none => (none, none, none)
  | some raw =>
    if raw = "" then (none, none, none)
    else
      match splitDashL raw.toList with
      | some (pre, post) =>
        (some raw, strOrNone (pyStrip pre.asString), strOrNone (pyStrip post.asString))
      | none => (some raw, some raw, none)

/-! ### Filesystem-safe naming -/

/-- Replacement of `/` by the fullwidth solidus (`s.replace("/", "／")`). -/
def fsReplaceSlash (c : Char) : Char :=
  if c = '/' then '／' else c

/-- Replacement of `\` by the fullwidth reverse solidus
(`s.replace("\\", "＼")`). -/
def fsReplaceBackslash (c : Char) : Char :=
  if c = '\\' then '＼' else c

/-- Model of `fs_safe_basename_from_title`: strip, replace path separators by
fullwidth look-alikes, remove NULs, strip again and trim trailing dots,
falling back to `"ebanglalibrary"` when empty. -/
def fs_safe_basename_from_title (title : String) : String :=
  match pyStripL title.toList with
  | [] => "ebanglalibrary"
  | c :: cs =>
    match rstripOn (fun c => c = '.')
        (pyStripL (((c :: cs).map fsReplaceSlash).map fsReplaceBackslash |>.filter
          (fun c => c ≠ '\x00'))) with
    | [] => "ebanglalibrary"
    | d :: ds => (d :: ds).asString

/-! ### HTML tree model

The sanitizer, heading deduplicator and content extractor operate on parsed
HTML.  A node is either a text node (`bs4.NavigableString`) or an element with
tag name, `id`, `class` list, `role`, optional `href`, and children.  A forest
is a list of nodes; the mutual inductive keeps every traversal structurally
recursive (and hence computable by kernel reduction). -/

mutual
inductive HNode where
  | text (s : String)
  | elem (tag : String) (idAttr : String) (classes : List String) (role : String)
      (href : Option String) (children : HForest)
inductive HForest where
  | nil
  | cons (h : HNode) (t : HForest)
end

/-- Forest to list of root nodes. -/
def HForest.toList : HForest → List HNode
  | .nil => []
  | .cons h t => h :: HForest.toList t

/-- List of root nodes to forest. -/
def HForest.ofList : List HNode → HForest
  | [] => .nil
  | h :: t => .cons h (HForest.ofList t)

/-- Forest concatenation. -/
def HForest.append : HForest → HForest → HForest
  | .nil, g => g
  | .cons h t, g => .cons h (HForest.append t g)

mutual
/-- Descendant text-node strings of a node, in document order. -/
def HNode.texts : HNode → List String
  | .text s => [s]
  | .elem _ _ _ _ _ ch => HForest.texts ch
/-- Descendant text-node strings of a forest, in document order. -/
def HForest.texts : HForest → List String
  | .nil => []
  | .cons h t => HNode.texts h ++ HForest.texts t
end

/-- Character count of a string. -/
def strLen (s : String) : Nat :=
  s.toList.length

/-- Join a list of strings with a separator (model of `str.join`). -/
def joinSep (sep : String) : List String → String
  | [] => ""
  | [x] => x
  | x :: y :: rest => x ++ sep ++ joinSep sep (y :: rest)

/-- Model of `get_text(" ", strip=True)`: strip each text segment, drop the
empty ones, join with a single space. -/
def getTextSep (n : HNode) : String :=
  joinSep " " (((HNode.texts n).map pyStrip).filter (fun s => s ≠ ""))

/-- Model of `get_text(strip=True)` (no separator). -/
def getTextStrip (n : HNode) : String :=
  joinSep "" (((HNode.texts n).map pyStrip).filter (fun s => s ≠ ""))

/-- Model of `len(n.get_text(strip=True))`: total length of the stripped text
segments. -/
def textLenStrip (n : HNode) : Nat :=
  (((HNode.texts n).map pyStrip).filter (fun s => s ≠ "")).foldl
    (fun acc s => acc + strLen s) 0

/-! ### Boilerplate sanitizer (`sanitize_article_html`) -/

mutual
/-- Recursively remove every element satisfying `p` with its whole subtree
(the effect of decomposing every matching element found by `find_all`,
checked top-down in document order). -/
def filterNodesN (p : HNode → Bool) : HNode → Option HNode
  | .text s => some (.text s)
  | .elem tag i cl r h ch =>
    if p (.elem tag i cl r h ch) then none
    else some (.elem tag i cl r h (filterNodesF p ch))
/-- Forest version of `filterNodesN`. -/
def filterNodesF (p : HNode → Bool) : HForest → HForest
  | .nil => .nil
  | .cons x t =>
    match filterNodesN p x with
    | none => filterNodesF p t
    | some y => .cons y (filterNodesF p t)
end

/-- Tags removed wholesale by the first sanitizer pass. -/
def badTags : List String :=
  ["script", "style", "noscript", "form", "iframe", "header", "footer", "nav", "aside"]

/-- Predicate of the first pass. -/
def isBadTag : HNode → Bool
  | .text _ => false
  | .elem tag _ _ _ _ _ => tag ∈ badTags

/-- Noise id/class/role substrings of the second pass
(`comment|comments|respond|reply|share|breadcrumb|sidebar|widget|meta|advert|ad-`). -/
def attrPatterns : List String :=
  ["comment", "comments", "respond", "reply", "share", "breadcrumb", "sidebar",
    "widget", "meta", "advert", "ad-"]

/-- Attribute string searched by the second pass:
`" ".join([el_id, " ".join(el_classes), el_role])`. -/
def attrsStringOf (idAttr : String) (classes : List String) (role : String) : String :=
  joinSep " " [idAttr, joinSep " " classes, role]

/-- Predicate of the second pass. -/
def matchesAttrPattern : HNode → Bool
  | .text _ => false
  | .elem _ i cl r _ _ => lowerContainsAny (attrsStringOf i cl r) attrPatterns

/-- Comment-prompt text patterns
(`leave a comment|মন্তব্য|কমেন্ট|প্রতিক্রিয়া|respond`). -/
def badTextPats : List String :=
  ["leave a comment", "মন্তব্য", "কমেন্ট", "প্রতিক্রিয়া", "respond"]

/-- Does the forest contain a direct text child matching the comment-prompt
pattern?  (The third pass removes the parents of matching text nodes.) -/
def directBadText : HForest → Bool
  | .nil => false
  | .cons (.text s) t => lowerContainsAny s badTextPats || directBadText t
  | .cons (.elem _ _ _ _ _ _) t => directBadText t

/-- Predicate of the third pass: an element is removed iff one of its direct
text children matches the comment-prompt pattern. -/
def hasCommentPromptText : HNode → Bool
  | .text _ => false
  | .elem _ _ _ _ _ ch => directBadText ch

/-- Predicate of the fourth pass: anchors whose `href` targets a comment
section (`#respond`, `#comments`, `?replytocom=`). -/
def isCommentAnchor : HNode → Bool
  | .elem "a" _ _ _ (some h) _ =>
    containsSub h "#respond" || containsSub h "#comments" || containsSub h "?replytocom="
  | _ => false

/-- Navigation phrase substrings of `nav_text_re`
(`bookmark|\*?bookmark\*?|বুকমার্ক|back to book|next lesson|previous lesson|prev lesson|next|prev|পূর্ববর্তী|পরবর্তী`;
the starred `bookmark` alternative matches iff plain `bookmark` does under
substring search). -/
def navTextPats : List String :=
  ["bookmark", "বুকমার্ক", "back to book", "next lesson", "previous lesson",
    "prev lesson", "next", "prev", "পূর্ববর্তী", "পরবর্তী"]

/-- Case-insensitive search of the navigation phrases. -/
def navTextMatch (t : String) : Bool :=
  lowerContainsAny t navTextPats

/-- Lowercased visible text of a node (`get_text(" ", strip=True).lower()`). -/
def lowerTextOf (x : HNode) : String :=
  (lowerL (getTextSep x).toList).asString

/-- Is `x` an anchor with non-empty navigation text (the anchors removed by
the fifth pass)? -/
def isNavAnchor : HNode → Bool
  | .elem "a" i cl r h ch =>
    lowerTextOf (.elem "a" i cl r h ch) ≠ "" && navTextMatch (lowerTextOf (.elem "a" i cl r h ch))
  | _ => false

mutual
/-- Fifth pass (a), per node: remove navigation anchors; when such an anchor
dominates its parent (the parent's visible text is within 20 characters of the
anchor's own), the parent is removed instead. -/
def stripNavAnchorsN : HNode → Option HNode
  | .text s => some (.text s)
  | .elem tag i cl r h ch =>
    match stripNavAnchorsF tag i cl r h .nil ch with
    | none => none
    | some ch2 => some (.elem tag i cl r h ch2)
/-- Fifth pass (a), over the children of an element whose attributes are
given: `done` holds the already-processed siblings; the parent text used in
the domination check reflects earlier removals, as in the live tree. -/
def stripNavAnchorsF (tag i : String) (cl : List String) (r : String)
    (h : Option String) (done : HForest) : HForest → Option HForest
  | .nil => some done
  | .cons x rest =>
    if isNavAnchor x then
      if strLen (getTextSep (.elem tag i cl r h (done.append (.cons x rest)))) ≤
          strLen (getTextSep x) + 20 then none
      else stripNavAnchorsF tag i cl r h done rest
    else
      match stripNavAnchorsN x with
      | none => stripNavAnchorsF tag i cl r h done rest
      | some y => stripNavAnchorsF tag i cl r h (done.append (.cons y .nil)) rest
end

/-- Fifth pass (a) over the top forest (the synthetic `body` wrapper and the
nodes around it). -/
def stripNavAnchorsTop : HForest → HForest
  | .nil => .nil
  | .cons x t =>
    match stripNavAnchorsN x with
    | none => stripNavAnchorsTop t
    | some y => .cons y (stripNavAnchorsTop t)

/-- Tags scanned by the fifth pass (b). -/
def smallNavTags : List String :=
  ["p", "div", "ul", "ol", "li"]

/-- Predicate of the fifth pass (b), for one tag: a short block (visible text
non-empty and at most 60 characters) matching the navigation phrases. -/
def isSmallNavBlock (tn : String) : HNode → Bool
  | .text _ => false
  | .elem tag i cl r h ch =>
    tag = tn &&
      (getTextSep (.elem tag i cl r h ch) ≠ "" &&
        (strLen (getTextSep (.elem tag i cl r h ch)) ≤ 60 &&
          navTextMatch (getTextSep (.elem tag i cl r h ch))))

/-- Exact bookmark-control text:
`^\s*(বুকমার্ক|bookmark)(?:\s*[☆★]?)\s*$`, case-insensitive. -/
def bookmarkExact (t : String) : Bool :=
  match
    (if startsWithL ((lowerL t.toList).dropWhile pyIsSpace) "বুকমার্ক".toList then
      some (((lowerL t.toList).dropWhile pyIsSpace).drop "বুকমার্ক".toList.length)
     else if startsWithL ((lowerL t.toList).dropWhile pyIsSpace) "bookmark".toList then
      some (((lowerL t.toList).dropWhile pyIsSpace).drop "bookmark".toList.length)
     else none) with
  | none => false
  | some r =>
    match r.dropWhile pyIsSpace with
    | '☆' :: rr => (rr.dropWhile pyIsSpace).isEmpty
    | '★' :: rr => (rr.dropWhile pyIsSpace).isEmpty
    | rr => (rr.dropWhile pyIsSpace).isEmpty

/-- Bookmark-control test of the sixth pass, for one tag: exact bookmark text,
or `bookmark` inside the id/class string. -/
def isBookmarkEl (tn : String) : HNode → Bool
  | .text _ => false
  | .elem tag i cl r h ch =>
    tag = tn &&
      (bookmarkExact (getTextSep (.elem tag i cl r h ch)) ||
        lowerContainsAny (joinSep " " [i, joinSep " " cl]) ["bookmark"])

/-- Bounded-fuel replace-all (model of Python `str.replace`; the fuel is the
input length, which always suffices since each step consumes at least one
character). -/
def replaceAllFuel (pat repl : List Char) : Nat → List Char → List Char
  | _, [] => []
  | 0, l => l
  | fuel + 1, c :: rest =>
    if pat ≠ [] && pat.isPrefixOf (c :: rest) then
      repl ++ replaceAllFuel pat repl fuel (rest.drop (pat.length - 1))
    else c :: replaceAllFuel pat repl fuel rest

/-- Model of `s.replace(pat, repl)` on character lists. -/
def replaceAllL (pat repl l : List Char) : List Char :=
  replaceAllFuel pat repl l.length l

/-- Emptiness test of the sixth pass: the parent's visible text with every
occurrence of the control's text removed, stripped
(`parent.get_text(" ", strip=True).replace(txt, "").strip()`). -/
def parentEmptyWithout (parentText elText : String) : Bool :=
  (pyStripL (replaceAllL elText.toList [] parentText.toList)).isEmpty

mutual
/-- Sixth pass, per node and tag: remove lone bookmark controls; when the
parent holds nothing but the control, the parent is removed instead. -/
def stripBookmarkN (tn : String) : HNode → Option HNode
  | .text s => some (.text s)
  | .elem tag i cl r h ch =>
    match stripBookmarkF tn tag i cl r h .nil ch with
    | none => none
    | some ch2 => some (.elem tag i cl r h ch2)
/-- Sixth pass over the children of an element, with processed siblings in
`done` (live-tree semantics as in `stripNavAnchorsF`). -/
def stripBookmarkF (tn : String) (tag i : String) (cl : List String) (r : String)
    (h : Option String) (done : HForest) : HForest → Option HForest
  | .nil => some done
  | .cons x rest =>
    if isBookmarkEl tn x then
      if parentEmptyWithout (getTextSep (.elem tag i cl r h (done.append (.cons x rest))))
          (getTextSep x) then none
      else stripBookmarkF tn tag i cl r h done rest
    else
      match stripBookmarkN tn x with
      | none => stripBookmarkF tn tag i cl r h done rest
      | some y => stripBookmarkF tn tag i cl r h (done.append (.cons y .nil)) rest
end

/-- Sixth pass over the top forest, for one tag. -/
def stripBookmarkTop (tn : String) : HForest → HForest
  | .nil => .nil
  | .cons x t =>
    match stripBookmarkN tn x with
    | none => stripBookmarkTop tn t
    | some y => .cons y (stripBookmarkTop tn t)

/-- Tags scanned by the sixth pass, in order. -/
def bookmarkTags : List String :=
  ["button", "a", "span", "div", "p"]

/-- Text of a trailing node as `_strip_trailing_nav` reads it: visible text
for elements, the stripped raw string for text nodes. -/
def nodeTrailText : HNode → String
  | .text s => pyStrip s
  | .elem tag i cl r h ch => getTextSep (.elem tag i cl r h ch)

/-- Condition for removing a trailing node: non-empty text of at most 80
characters matching the navigation phrases. -/
def trailCond (n : HNode) : Bool :=
  nodeTrailText n ≠ "" && (strLen (nodeTrailText n) ≤ 80 && navTextMatch (nodeTrailText n))

/-- One call of `_strip_trailing_nav`: drop the maximal matching suffix of the
children, reporting whether anything was removed. -/
def stripTrailingNavPass (l : List HNode) : List HNode × Bool :=
  ((l.reverse.dropWhile trailCond).reverse, !(l.reverse.takeWhile trailCond).isEmpty)

/-- The bounded loop around `_strip_trailing_nav` (up to 3 calls, stopping at
the first call that removes nothing). -/
def stripTrailingLoop : Nat → List HNode → List HNode
  | 0, l => l
  | k + 1, l =>
    match stripTrailingNavPass l with
    | (l2, true) => stripTrailingLoop k l2
    | (l2, false) => l2

/-- Model of `sanitize_article_html`.  The fragment (a list of top-level
nodes) is wrapped in a synthetic `body` element, as the parser does; the seven
passes run in source order; the result is the body's children (or the
remaining forest in the degenerate case where the body itself was removed). -/
def sanitize_article_html (fragment : List HNode) : List HNode :=
  match
    bookmarkTags.foldl (fun acc tn => stripBookmarkTop tn acc)
      (smallNavTags.foldl (fun acc tn => filterNodesF (isSmallNavBlock tn) acc)
        (stripNavAnchorsTop
          (filterNodesF isCommentAnchor
            (filterNodesF hasCommentPromptText
              (filterNodesF matchesAttrPattern
                (filterNodesF isBadTag
                  (.cons (HNode.elem "body" "" [] "" none (HForest.ofList fragment)) .nil))))))) with
  | .cons (HNode.elem "body" _ _ _ _ ch) .nil => stripTrailingLoop 3 ch.toList
  | other => stripTrailingLoop 3 other.toList

/-! ### Heading deduplicator (`strip_redundant_headings`) -/

/-- Whitespace-run collapsing (the `re.sub(r"\s+", " ", ...)` step of
`_norm_text`); `prevSpace` records whether the previous character was part of
a run already emitted as a single space. -/
def collapseWsGo (prevSpace : Bool) : List Char → List Char
  | [] => []
  | c :: rest =>
    if pyIsSpace c then
      if prevSpace then collapseWsGo true rest
      else ' ' :: collapseWsGo true rest
    else c :: collapseWsGo false rest

/-- Model of `_norm_text`: strip, lowercase, collapse whitespace. -/
def norm_text (s : String) : String :=
  (collapseWsGo false (lowerL (pyStripL s.toList))).asString

/-- Title match test of the first heading pass: normalized equality or
substring containment in either direction (both sides non-empty). -/
def headingMatchesTitle (want txt : String) : Bool :=
  txt = want || (txt ≠ "" && (want ≠ "" && (containsSub want txt || containsSub txt want)))

mutual
/-- First heading pass, per node and heading tag: the first heading matching
the (normalized) title is kept and `seen` becomes true; later matching
headings of the scanned tags are removed. -/
def dedupTitleN (want tn : String) : Bool → HNode → Bool × Option HNode
  | seen, .text s => (seen, some (.text s))
  | seen, .elem tag i cl r h ch =>
    if tag = tn then
      if headingMatchesTitle want (norm_text (getTextSep (.elem tag i cl r h ch))) then
        if seen then (seen, none)
        else
          match dedupTitleF want tn true ch with
          | (seen2, ch2) => (seen2, some (.elem tag i cl r h ch2))
      else
        match dedupTitleF want tn seen ch with
        | (seen2, ch2) => (seen2, some (.elem tag i cl r h ch2))
    else
      match dedupTitleF want tn seen ch with
      | (seen2, ch2) => (seen2, some (.elem tag i cl r h ch2))
/-- Forest version of `dedupTitleN`. -/
def dedupTitleF (want tn : String) : Bool → HForest → Bool × HForest
  | seen, .nil => (seen, .nil)
  | seen, .cons x t =>
    match dedupTitleN want tn seen x with
    | (seen2, none) =>
      dedupTitleF want tn seen2 t
    | (seen2, some y) =>
      match dedupTitleF want tn seen2 t with
      | (seen3, t2) => (seen3, .cons y t2)
end

mutual
/-- Second heading pass, per node and heading tag: a heading whose
`(tag, normalized text)` key was already seen is removed; otherwise its key is
recorded (even for empty text, as in the source). -/
def dedupSeenN (tn : String) : List String → HNode → List String × Option HNode
  | seen, .text s => (seen, some (.text s))
  | seen, .elem tag i cl r h ch =>
    if tag = tn then
      if norm_text (getTextSep (.elem tag i cl r h ch)) ≠ "" &&
          (tn ++ ":" ++ norm_text (getTextSep (.elem tag i cl r h ch))) ∈ seen then
        (seen, none)
      else
        match dedupSeenF tn ((tn ++ ":" ++ norm_text (getTextSep (.elem tag i cl r h ch))) :: seen) ch with
        | (seen2, ch2) => (seen2, some (.elem tag i cl r h ch2))
    else
      match dedupSeenF tn seen ch with
      | (seen2, ch2) => (seen2, some (.elem tag i cl r h ch2))
/-- Forest version of `dedupSeenN`. -/
def dedupSeenF (tn : String) : List String → HForest → List String × HForest
  | seen, .nil => (seen, .nil)
  | seen, .cons x t =>
    match dedupSeenN tn seen x with
    | (seen2, none) => dedupSeenF tn seen2 t
    | (seen2, some y) =>
      match dedupSeenF tn seen2 t with
      | (seen3, t2) => (seen3, .cons y t2)
end

/-- Heading tags scanned by both passes, in order. -/
def headingTags : List String :=
  ["h1", "h2", "h3"]

/-- Model of `strip_redundant_headings`: the two passes over `h1`/`h2`/`h3`,
with the `seen` state carried across tags inside each pass. -/
def strip_redundant_headings (title : String) (fragment : List HNode) : List HNode :=
  match headingTags.foldl
      (fun acc tn => dedupTitleF (norm_text title) tn acc.1 acc.2)
      (false, HForest.ofList fragment) with
  | (_, f1) =>
    match headingTags.foldl (fun acc tn => dedupSeenF tn acc.1 acc.2) ([], f1) with
    | (_, f2) => f2.toList

/-! ### Content extractor fallback tiers (`extract_content`)

The first (readability) tier is an optional external library; the claims below
concern the scored-container tier and the whole-body tier, which run when
readability is unavailable or insufficient (lines 242-277 of the source).  The
parsed document is modelled as the list of the body's top-level nodes. -/

mutual
/-- All nodes of a subtree satisfying `p`, in document (pre-)order
(`soup.find_all`). -/
def findAllN (p : HNode → Bool) : HNode → List HNode
  | .text _ => []
  | .elem tag i cl r h ch =>
    (if p (.elem tag i cl r h ch) then [HNode.elem tag i cl r h ch] else []) ++ findAllF p ch
/-- Forest version of `findAllN`. -/
def findAllF (p : HNode → Bool) : HForest → List HNode
  | .nil => []
  | .cons x t => findAllN p x ++ findAllF p t
end

/-- The `find_all` of a document given as a node list. -/
def findAllL (p : HNode → Bool) (doc : List HNode) : List HNode :=
  doc.flatMap (findAllN p)

mutual
/-- First node of a subtree satisfying `p`, in document order (`soup.find`). -/
def findFirstN (p : HNode → Bool) : HNode → Option HNode
  | .text _ => none
  | .elem tag i cl r h ch =>
    if p (.elem tag i cl r h ch) then some (.elem tag i cl r h ch)
    else findFirstF p ch
/-- Forest version of `findFirstN`. -/
def findFirstF (p : HNode → Bool) : HForest → Option HNode
  | .nil => none
  | .cons x t =>
    match findFirstN p x with
    | some y => some y
    | none => findFirstF p t
end

/-- Tag test. -/
def isTag (t : String) : HNode → Bool
  | .text _ => false
  | .elem tag _ _ _ _ _ => tag = t

/-- Class keywords of the `div` candidate pattern
(`(post|entry|content|article|chapter|chap)`, case-insensitive). -/
def divClassKeywords : List String :=
  ["post", "entry", "content", "article", "chapter", "chap"]

/-- Class keywords of the `section` candidate pattern
(`content|chapter|chap`). -/
def sectionClassKeywords : List String :=
  ["content", "chapter", "chap"]

/-- Does any class of the element match the keyword regex?  (BeautifulSoup
matches an attribute regex against each class value.) -/
def classMatches (keywords : List String) : HNode → Bool
  | .text _ => false
  | .elem _ _ cl _ _ _ => cl.any (fun c => lowerContainsAny c keywords)

/-- Candidate `div` test. -/
def isContentDiv (n : HNode) : Bool :=
  isTag "div" n && classMatches divClassKeywords n

/-- Candidate `section` test. -/
def isContentSection (n : HNode) : Bool :=
  isTag "section" n && classMatches sectionClassKeywords n

/-- Candidate containers of the scored tier, in scan order: `article` and
`main` elements, then `div`s and `section`s with content-keyword classes. -/
def candidatesOf (doc : List HNode) : List HNode :=
  findAllL (isTag "article") doc ++ findAllL (isTag "main") doc ++
    findAllL isContentDiv doc ++ findAllL isContentSection doc

/-- Scoring loop of the scored tier: a candidate becomes the best iff its
visible-text length exceeds 300 and strictly exceeds the current best. -/
def pickBest : Option (Nat × HNode) → List HNode → Option (Nat × HNode)
  | best, [] => best
  | best, n :: rest =>
    if 300 < textLenStrip n &&
        (match best with
         | none => true
         | some (bl, _) => bl < textLenStrip n) then
      pickBest (some (textLenStrip n, n)) rest
    else pickBest best rest

/-- Selected container of the scored tier, if any. -/
def extract_fallback_best (doc : List HNode) : Option HNode :=
  (pickBest none (candidatesOf doc)).map (fun p => p.2)

/-- Title of the fallback tiers: text of the first `h1`/`h2`/`title` element,
else `"Untitled"`. -/
def extract_content_title (doc : List HNode) : String :=
  match doc.findSome? (findFirstN (fun n => isTag "h1" n || isTag "h2" n || isTag "title" n)) with
  | some n => getTextStrip n
  | none => "Untitled"

/-- Model of the fallback tiers of `extract_content` (readability absent or
insufficient): the winning container — or the whole body when no candidate
exceeds 300 characters — is sanitized and heading-deduplicated. -/
def extract_content_fallback (doc : List HNode) : String × List HNode :=
  match pickBest none (candidatesOf doc) with
  | some (_, best) =>
    (extract_content_title doc,
      strip_redundant_headings (extract_content_title doc) (sanitize_article_html [best]))
  | none =>
    (extract_content_title doc,
      strip_redundant_headings (extract_content_title doc) (sanitize_article_html doc))

/-! ### Cover-image heuristic (`extract_cover_image`)

The page is viewed through the two queries the function makes: its
`<link rel="preload">` elements and the `img` sources of its paragraphs.  An
image download is a function from URL to an optional HTTP response (`none`
models a network exception); `requests` raises for status codes in
`[400, 600)` and the body is returned otherwise. -/

/-- One `<link rel="preload">` element: its `as` attribute value (when
present) and its `imagesrcset` attribute. -/
structure PreloadLink where
  asAttr : Option String
  imagesrcset : Option String

/-- Cover-relevant view of a page. -/
structure CoverPage where
  preloads : List PreloadLink
  paraImgSrcs : List (List (Option String))

/-- HTTP response model. -/
structure HttpResp where
  status : Nat
  contentType : String
  content : List Nat

/-- Image fetcher model. -/
def ImgWeb : Type := String → Option HttpResp

/-- Does `requests.raise_for_status` raise for this status code? -/
def raisesForStatus (st : Nat) : Bool :=
  400 ≤ st && st < 600

/-- Split on commas, keeping empty chunks (Python `str.split(",")`). -/
def splitCommaGo (cur : List Char) : List Char → List (List Char)
  | [] => [cur.reverse]
  | ',' :: rest => cur.reverse :: splitCommaGo [] rest
  | c :: rest => splitCommaGo (c :: cur) rest

/-- Comma split of a character list. -/
def splitComma (l : List Char) : List (List Char) :=
  splitCommaGo [] l

/-- Whitespace tokenization dropping empty tokens (Python `str.split()`). -/
def wsTokensGo (cur : List Char) : List Char → List (List Char)
  | [] => if cur.isEmpty then [] else [cur.reverse]
  | c :: rest =>
    if pyIsSpace c then
      if cur.isEmpty then wsTokensGo [] rest
      else cur.reverse :: wsTokensGo [] rest
    else wsTokensGo (c :: cur) rest

/-- Whitespace tokenization of a character list. -/
def wsTokens (l : List Char) : List (List Char) :=
  wsTokensGo [] l

/-- First URL of an `imagesrcset` value: strip, split on commas, strip the
parts and drop empty ones, take the first whitespace token of the first part. -/
def srcsetFirstUrl (srcset : String) : Option String :=
  match ((splitComma (pyStripL srcset.toList)).map pyStripL).filter (fun p => !p.isEmpty) with
  | [] => none
  | first :: _ =>
    match wsTokens first with
    | [] => none
    | tok :: _ => some tok.asString

/-- Substrings that disqualify a candidate URL (`_should_skip_url`). -/
def skipUrlSubs : List String :=
  ["logo", "favicon", "sprite", "ads", "advert", "banner", "placeholder",
    "wp-includes", "/themes/", "comment", "emoji", "gravatar", "profile",
    "avatar", "share", "social", "button", "icon"]

/-- Model of `_should_skip_url`: lowercase, test the blocklist substrings and
the `.svg`/`.gif` suffixes. -/
def should_skip_url (u : String) : Bool :=
  skipUrlSubs.any (fun s => subAt s.toList (lowerL u.toList)) ||
    endsWithL (lowerL u.toList) ".svg".toList || endsWithL (lowerL u.toList) ".gif".toList

/-- Absolutization used for image URLs: keep URLs already starting with a
scheme, resolve the rest against the page. -/
def absolutizeImg (base_url u : String) : String :=
  if startsWithL u.toList "http://".toList || startsWithL u.toList "https://".toList then u
  else urljoin base_url u

/-- Preload phase of `extract_cover_image`: the first preload image whose
download does not raise and whose declared content type starts with `image/`
is returned. -/
def tryPreloads (web : ImgWeb) (base_url : String) : List PreloadLink → Option (String × List Nat)
  | [] => none
  | l :: rest =>
    if l.asAttr = some "image" then
      match l.imagesrcset with
      | some ss =>
        match srcsetFirstUrl ss with
        | some u0 =>
          match web (absolutizeImg base_url u0) with
          | none => tryPreloads web base_url rest
          | some resp =>
            if raisesForStatus resp.status then tryPreloads web base_url rest
            else if startsWithL resp.contentType.toList "image/".toList then
              some (absolutizeImg base_url u0, resp.content)
            else tryPreloads web base_url rest
        | none => tryPreloads web base_url rest
      | none => tryPreloads web base_url rest
    else tryPreloads web base_url rest

/-- Fallback candidates: the `src` of every image in the first three
paragraphs, each with priority 3. -/
def fallbackCandidates (page : CoverPage) : List (String × Nat) :=
  ((page.paraImgSrcs.take 3).flatMap (fun imgs => imgs.filterMap id)).filterMap
    (fun src => if src = "" then none else some (src, 3))

/-- Filter and de-duplication of the candidates: blocklisted URLs are dropped,
duplicates (keyed by the URL before any query) are dropped, and CDN-hosted
candidates get a +2 priority boost. -/
def dedupCandidatesGo (seen : List String) : List (String × Nat) → List (String × Nat)
  | [] => []
  | (u, pr) :: rest =>
    if u = "" || should_skip_url u then dedupCandidatesGo seen rest
    else if (u.toList.takeWhile (fun c => c ≠ '?')).asString ∈ seen then
      dedupCandidatesGo seen rest
    else
      (u, if containsSub u "cdn.ebanglalibrary.com" then pr + 2 else pr) ::
        dedupCandidatesGo ((u.toList.takeWhile (fun c => c ≠ '?')).asString :: seen) rest

/-- Download loop over the sorted fallback candidates: the first candidate
whose download does not raise and is declared an image is returned. -/
def tryCandidates (web : ImgWeb) (base_url : String) : List (String × Nat) → Option (String × List Nat)
  | [] => none
  | (u0, _) :: rest =>
    match web (absolutizeImg base_url u0) with
    | none => tryCandidates web base_url rest
    | some resp =>
      if raisesForStatus resp.status then tryCandidates web base_url rest
      else if startsWithL resp.contentType.toList "image/".toList then
        some (absolutizeImg base_url u0, resp.content)
      else tryCandidates web base_url rest

/-- Model of `extract_cover_image`: the preload phase, then the
filtered/de-duplicated paragraph candidates sorted by priority (descending,
stable). -/
def extract_cover_image (page : CoverPage) (web : ImgWeb) (base_url : String) :
    Option (String × List Nat) :=
  match tryPreloads web base_url page.preloads with
  | some r => some r
  | none =>
    match fallbackCandidates page with
    | [] => none
    | c :: cs =>
      match dedupCandidatesGo [] (c :: cs) with
      | [] => none
      | f :: fs =>
        tryCandidates web base_url
          (stableSort (fun a b => decide (b.2 ≤ a.2)) (f :: fs))

/-! ### Predicates used by the claim statements -/

/-- The URL has a parsed scheme, and that scheme is neither `mailto` nor
`tel` (the notion of "absolute URL not using the mailto:/tel: scheme" of the
discovery invariants). -/
def goodScheme (u : String) : Bool :=
  match schemeSplit u.toList with
  | some (s, _) => decide (s ≠ "mailto".toList) && decide (s ≠ "tel".toList)
  | none => false

/-- The URL contains no fragment delimiter (it is fragment-stripped). -/
def noFragmentChar (u : String) : Bool :=
  u.toList.all (fun c => c ≠ '#')

/-- Invariant required of every discovery output: absolute (scheme present),
not a `mailto:`/`tel:` reference, fragment-stripped, and not a known asset. -/
def cleanUrlOk (u : String) : Bool :=
  goodScheme u && (noFragmentChar u && !assetLike u)

/-- Separator occurrence of the title regex `\s[-–]\s` at position `i`:
whitespace, dash or en-dash, whitespace. -/
def sepAtB (l : List Char) (i : Nat) : Bool :=
  match l[i]?, l[i + 1]?, l[i + 2]? with
  | some a, some b, some c => pyIsSpace a && (b = '-' || b = '–') && pyIsSpace c
  | _, _, _ => false

/-- Author slug of an author-namespace path (`/authors/<slug>/...`), used to
state which author a pagination page belongs to. -/
def authorSlugOf (p : String) : Option String :=
  match p.toList with
  | '/' :: 'a' :: 'u' :: 't' :: 'h' :: 'o' :: 'r' :: 's' :: '/' :: r =>
    if (r.takeWhile (fun c => c ≠ '/')).isEmpty then none
    else some (r.takeWhile (fun c => c ≠ '/')).asString
  | _ => none

/-- Statement-side rendering of the spec's "that author's own pagination
pages": an author-detail/pagination path whose slug equals the seed's slug. -/
def is_own_author_pagination (seed_path p : String) : Bool :=
  is_author_detail_index_path p && decide (authorSlugOf p = authorSlugOf seed_path)

/-! ### Concrete inputs used by counterexamples and witnesses -/

/-- Book page holding one same-domain and one outside-domain lesson link. -/
def c1web : Web := fun u =>
  if u = "http://www.ex.com/books/b1/" then
    some ["http://www.ex.com/lessons/a1/", "http://other.com/lessons/b1/"]
  else none

/-- Author page of `alice` that links to the author page of `bob`, whose page
lists a book. -/
def c2web : Web := fun u =>
  if u = "https://h/authors/alice/" then some ["https://h/authors/bob/"]
  else if u = "https://h/authors/bob/" then some ["https://h/books/story1/"]
  else none

/-- A 400-character text body. -/
def c3text : String :=
  (List.replicate 400 'a').asString

/-- An `article` element holding 400 characters of text. -/
def c3article : HNode :=
  .elem "article" "" [] "" none (.cons (.text c3text) .nil)

/-- Document with a heading and a long article (scored-tier witness input). -/
def c3doc : List HNode :=
  [.elem "h1" "" [] "" none (.cons (.text "My Title") .nil), c3article]

/-- Page whose title carries the dash-separated title/author pair. -/
def c6page : TitlePage :=
  ⟨some "বাংলা কবিতা – রবীন্দ্রনাথ ঠাকুর", none⟩

/-- Page whose title has no separator. -/
def c6pageNoDash : TitlePage :=
  ⟨some " ab ", none⟩

/-- Cover page with a single preloaded image. -/
def c8page : CoverPage :=
  ⟨[⟨some "image", some "http://h/c.png 1x"⟩], []⟩

/-- Image fetcher answering `304 Not Modified` with an image content type
(a non-2xx status that `raise_for_status` does not raise on). -/
def c8web : ImgWeb := fun u =>
  if u = "http://h/c.png" then some ⟨304, "image/png", [137, 80]⟩ else none

/-- Lone bookmark control (`span` with text `Bookmark`). -/
def c9span : HNode :=
  .elem "span" "" [] "" none (.cons (.text "Bookmark") .nil)

/-- Block whose text is 63 characters with the control, 54 without: above the
short-navigation threshold on the first sanitizer run, below it once the
bookmark pass has removed the control. -/
def c9block : HNode :=
  .elem "div" "" [] "" none
    (.cons c9span (.cons (.text " We continue the next part of our story here with words") .nil))

/-- Trailing clean block keeping the navigation-matching block away from the
trailing-strip pass. -/
def c9filler : HNode :=
  .elem "div" "" [] "" none
    (.cons (.text "Filler paragraph with plain story content and nothing special at all here") .nil)

/-- Fragment on which the sanitizer is not idempotent. -/
def c9frag : List HNode :=
  [c9block, c9filler]

/-! ## Helper lemmas -/

theorem takeWhile_append_all {α : Type} (p : α → Bool) (l₁ l₂ : List α)
    (h : ∀ c ∈ l₁, p c = true) :
    List.takeWhile p (l₁ ++ l₂) = l₁ ++ List.takeWhile p l₂ := by
  induction l₁ with
  | nil => simp
  | cons x xs ih =>
    simp only [List.cons_append, List.takeWhile_cons, h x (by simp)]
    simp only [if_true]
    rw [ih (fun c hc => h c (by simp [hc]))]

theorem drop_takeWhile_length {α : Type} (p : α → Bool) (l : List α) :
    l.drop (l.takeWhile p).length = l.dropWhile p := by
  induction l with
  | nil => rfl
  | cons x xs ih =>
    by_cases h : p x
    · simp only [List.takeWhile_cons, h, if_true, List.length_cons, List.drop_succ_cons,
        List.dropWhile_cons, ih]

    · simp [List.takeWhile_cons, h]

theorem toList_asString (l : List Char) : l.asString.toList = l := rfl

theorem toList_append (a b : String) : (a ++ b).toList = a.toList ++ b.toList :=
  String.data_append a b

theorem asString_ne_empty (c : Char) (cs : List Char) : (c :: cs).asString ≠ "" := by
  intro h
  exact List.noConfusion (congrArg String.toList h)

theorem head?_dropWhile_false {α : Type} {p : α → Bool} {l : List α} {c : α}
    (h : (l.dropWhile p).head? = some c) : p c = false := by
  induction l with
  | nil => simp at h
  | cons a t ih =>
    by_cases ha : p a
    · rw [List.dropWhile_cons, if_pos ha] at h
      exact ih h
    · rw [List.dropWhile_cons, if_neg ha] at h
      simp only [List.head?_cons, Option.some.injEq] at h
      rw [h] at ha
      exact Bool.eq_false_iff.mpr ha

theorem mem_dropWhile {α : Type} {p : α → Bool} {l : List α} {c : α}
    (h : c ∈ l.dropWhile p) : c ∈ l :=
  List.Sublist.mem h (List.dropWhile_sublist _)

theorem mem_rstripOn {p : Char → Bool} {l : List Char} {c : Char}
    (h : c ∈ rstripOn p l) : c ∈ l := by
  rw [rstripOn, List.mem_reverse] at h
  exact List.mem_reverse.mp (mem_dropWhile h)

theorem mem_pyStripL {l : List Char} {c : Char} (h : c ∈ pyStripL l) : c ∈ l :=
  mem_dropWhile (mem_rstripOn h)

theorem getLast?_rstripOn {p : Char → Bool} {l : List Char} {c : Char}
    (h : (rstripOn p l).getLast? = some c) : p c = false := by
  rw [rstripOn, List.getLast?_reverse] at h
  exact head?_dropWhile_false h

theorem dropWhile_eq_self_of_head {α : Type} {p : α → Bool} {l : List α}
    (h : ∀ c, l.head? = some c → p c = false) : l.dropWhile p = l := by
  cases l with
  | nil => rfl
  | cons a t =>
    rw [List.dropWhile_cons, if_neg]
    rw [h a rfl]
    simp

theorem rstripOn_eq_self_of_getLast {p : Char → Bool} {l : List Char}
    (h : ∀ c, l.getLast? = some c → p c = false) : rstripOn p l = l := by
  rw [rstripOn, dropWhile_eq_self_of_head, List.reverse_reverse]
  intro c hc
  rw [List.head?_reverse] at hc
  exact h c hc

theorem head?_rstripOn {p : Char → Bool} {l : List Char} {c : Char}
    (h : (rstripOn p l).head? = some c) : l.head? = some c := by
  obtain ⟨t, ht⟩ : l.reverse.dropWhile p <:+ l.reverse := List.dropWhile_suffix p
  have hl : l = (l.reverse.dropWhile p).reverse ++ t.reverse := by
    rw [← List.reverse_append, ht, List.reverse_reverse]
  rw [rstripOn] at h
  cases hdr : (l.reverse.dropWhile p).reverse with
  | nil =>
    rw [hdr] at h
    exact absurd h (by simp)
  | cons x xs =>
    rw [hdr] at h hl
    simp only [List.head?_cons, Option.some.injEq] at h
    rw [hl, List.cons_append, List.head?_cons, h]

theorem getLast?_pyStripL {l : List Char} {c : Char}
    (h : (pyStripL l).getLast? = some c) : pyIsSpace c = false :=
  getLast?_rstripOn h

theorem head?_pyStripL {l : List Char} {c : Char}
    (h : (pyStripL l).head? = some c) : pyIsSpace c = false :=
  head?_dropWhile_false (head?_rstripOn h)

theorem pyStripL_idem (l : List Char) : pyStripL (pyStripL l) = pyStripL l := by
  rw [pyStripL, dropWhile_eq_self_of_head, rstripOn_eq_self_of_getLast]
  · intro c hc
    exact getLast?_pyStripL hc
  · intro c hc
    exact head?_pyStripL hc

theorem pyStrip_idem (s : String) : pyStrip (pyStrip s) = pyStrip s := by
  rw [pyStrip, pyStrip, toList_asString, pyStripL_idem]

/-! ## Claim C9: sanitizer idempotence -/

/-- Claim C9, counterexample: the boilerplate sanitizer is not idempotent.
On `c9frag` the first run removes the bookmark control from the first block
(its text drops from 63 to 54 characters) and the second run then removes the
whole block, which now falls under the 60-character short-navigation
threshold while still containing the phrase `next`. -/
theorem c9_sanitize_not_idempotent_cex :
    sanitize_article_html (sanitize_article_html c9frag) ≠ sanitize_article_html c9frag := by
  intro h
  exact absurd (congrArg List.length h) (by decide)

/-- Claim C9 (amended): the sanitizer is not a fixed point in general; a later
pass (bookmark-control removal) can shrink a block's visible text to within
the 60-character threshold of the earlier short-navigation pass, so a second
run removes more.  On `c9frag`, the first run only removes the bookmark
control, the second run also removes its (now short, navigation-matching)
parent block. -/
theorem c9_sanitize_second_run_removes_more :
    sanitize_article_html c9frag =
      [HNode.elem "div" "" [] "" none
        (.cons (.text " We continue the next part of our story here with words") .nil),
        c9filler] ∧
    sanitize_article_html (sanitize_article_html c9frag) = [c9filler] :=
  ⟨rfl, rfl⟩

/-! ## Claim C2: author-restricted index traversal -/

/-- Claim C2: run of `discover_books_from_index` seeded at the author-detail
page of `alice`, whose page links to the author-detail page of `bob`.  The
code enqueues and visits `bob`'s page (any path matching
`_is_author_detail_index_path` is followed), although it is not a pagination
page of `alice`, and `bob`'s book ends up in the result — contradicting the
source's own comment `only allow this author's own pagination pages`. -/
theorem c2_discover_books_follows_other_author :
    discover_books_core c2web "https://h/authors/alice/" 500 20 =
      (["https://h/books/story1/"], ["https://h/authors/bob/", "https://h/authors/alice/"]) ∧
    is_author_detail_index_path (pathDecOf "https://h/authors/alice/") = true ∧
    is_own_author_pagination (pathDecOf "https://h/authors/alice/") (pathDecOf "https://h/authors/bob/") = false ∧
    "https://h/authors/bob/" ∈ (discover_books_core c2web "https://h/authors/alice/" 500 20).2 ∧
    discover_books_from_index c2web "https://h/authors/alice/" 500 20 =
      ["https://h/books/story1/"] := by
  have e0 : is_author_detail_index_path (pathDecOf "https://h/authors/alice/") = true := rfl
  have hrun : discover_books_core c2web "https://h/authors/alice/" 500 20 =
      (["https://h/books/story1/"], ["https://h/authors/bob/", "https://h/authors/alice/"]) := by
    simp only [discover_books_core, e0]
    rw [discoverBooksGo]
    have e1 : collectBooksGo "https://h/authors/alice/" "https://h/authors/alice/" 500 []
        ["https://h/authors/bob/"] = [] := rfl
    have e2 : enqueueBooksGo "https://h/authors/alice/" "https://h/authors/alice/" true
        ["https://h/authors/alice/"] ["https://h/authors/bob/"] = ["https://h/authors/bob/"] := rfl
    simp +decide [c2web, e1, e2]
    rw [discoverBooksGo]
    have e3 : collectBooksGo "https://h/authors/alice/" "https://h/authors/bob/" 500 []
        ["https://h/books/story1/"] = ["https://h/books/story1/"] := rfl
    have e4 : enqueueBooksGo "https://h/authors/alice/" "https://h/authors/bob/" true
        ["https://h/authors/bob/", "https://h/authors/alice/"] ["https://h/books/story1/"] = [] := rfl
    simp +decide [c2web, e3, e4]
    rw [discoverBooksGo]
  refine ⟨hrun, e0, by decide, ?_, ?_⟩
  · rw [hrun]
    simp
  · rw [discover_books_from_index, hrun]
    rfl

/-! ## Claim C5: filesystem-safe naming -/

theorem mem_fs_chain {l : List Char} {c : Char}
    (h : c ∈ ((l.map fsReplaceSlash).map fsReplaceBackslash).filter (fun c => c ≠ '\x00')) :
    c ≠ '/' ∧ c ≠ '\\' ∧ c ≠ '\x00' := by
  rw [List.mem_filter] at h
  obtain ⟨hm, hne⟩ := h
  have hne0 : c ≠ '\x00' := by simpa using hne
  rw [List.mem_map] at hm
  obtain ⟨a, ha, rfl⟩ := hm
  rw [List.mem_map] at ha
  obtain ⟨b, _hb, rfl⟩ := ha
  refine ⟨?_, ?_, hne0⟩
  · simp only [fsReplaceSlash, fsReplaceBackslash]
    split_ifs with h1 h2 h3 <;> simp_all
  · simp only [fsReplaceSlash, fsReplaceBackslash]
    split_ifs with h1 h2 h3 <;> simp_all

/-- Claim C5, counterexample: on the input `"a/\b ."` (which contains both
path separators) the returned name ends with a space: the trailing-dot trim
runs after the whitespace trim and exposes the space that preceded the dot. -/
theorem c5_fs_safe_trailing_space_cex :
    '/' ∈ "a/\\b .".toList ∧ '\\' ∈ "a/\\b .".toList ∧
    fs_safe_basename_from_title "a/\\b ." = "a／＼b " ∧
    (fs_safe_basename_from_title "a/\\b .").toList.getLast? = some ' ' := by
  refine ⟨by decide, by decide, rfl, rfl⟩

/-- Claim C5 (amended): for every input containing `/` and `\`, the
filesystem-safe name contains neither raw separator nor a NUL, is non-empty,
and does not end with a dot.  (It can end with a space when a space precedes
the input's trailing dots, as the counterexample shows; the original claim's
"ends with neither a dot nor a space" fails in that case.) -/
theorem c5_fs_safe_amended (title : String)
    (_h1 : '/' ∈ title.toList) (_h2 : '\\' ∈ title.toList) :
    '/' ∉ (fs_safe_basename_from_title title).toList ∧
    '\\' ∉ (fs_safe_basename_from_title title).toList ∧
    '\x00' ∉ (fs_safe_basename_from_title title).toList ∧
    fs_safe_basename_from_title title ≠ "" ∧
    (fs_safe_basename_from_title title).toList.getLast? ≠ some '.' := by
  unfold fs_safe_basename_from_title
  split
  · exact ⟨by decide, by decide, by decide, by decide, by decide⟩
  · rename_i c cs hstrip
    split
    · exact ⟨by decide, by decide, by decide, by decide, by decide⟩
    · rename_i d ds hr
      rw [toList_asString]
      refine ⟨?_, ?_, ?_, asString_ne_empty d ds, ?_⟩
      · intro hm
        rw [← hr] at hm
        exact absurd rfl (mem_fs_chain (mem_pyStripL (mem_rstripOn hm))).1
      · intro hm
        rw [← hr] at hm
        exact absurd rfl (mem_fs_chain (mem_pyStripL (mem_rstripOn hm))).2.1
      · intro hm
        rw [← hr] at hm
        exact absurd rfl (mem_fs_chain (mem_pyStripL (mem_rstripOn hm))).2.2
      · intro hlast
        rw [← hr] at hlast
        have := getLast?_rstripOn hlast
        simp at this

/-- Claim C5, witness: the amended theorem applied at the concrete input
`"a/\b"`. -/
theorem c5_fs_safe_witness :
    '/' ∉ (fs_safe_basename_from_title "a/\\b").toList ∧
    '\\' ∉ (fs_safe_basename_from_title "a/\\b").toList ∧
    '\x00' ∉ (fs_safe_basename_from_title "a/\\b").toList ∧
    fs_safe_basename_from_title "a/\\b" ≠ "" ∧
    (fs_safe_basename_from_title "a/\\b").toList.getLast? ≠ some '.' :=
  c5_fs_safe_amended "a/\\b" (by decide) (by decide)

/-! ## Claims C6 and C10: title/author parsing -/

theorem strOrNone_some {X s : String} (h : strOrNone X = some s) : s = X ∧ X ≠ "" := by
  rw [strOrNone] at h
  split at h
  · exact absurd h (by simp)
  · rename_i hX
    simp only [Option.some.injEq] at h
    exact ⟨h.symm, hX⟩

theorem rawTitleOf_strip (p : TitlePage) (raw : String) (h : rawTitleOf p = some raw) :
    pyStrip raw = raw := by
  cases hp : p.titleString with
  | some t =>
    simp only [rawTitleOf, hp] at h
    by_cases ht : t = ""
    · rw [if_pos ht] at h
      cases hh : p.h1Text with
      | none => rw [hh] at h; exact absurd h (by simp)
      | some s =>
        rw [hh] at h
        simp only [Option.map_some', Option.some.injEq] at h
        rw [← h]
        exact pyStrip_idem s
    · rw [if_neg ht] at h
      simp only [Option.some.injEq] at h
      rw [← h]
      exact pyStrip_idem t
  | none =>
    simp only [rawTitleOf, hp] at h
    cases hh : p.h1Text with
    | none => rw [hh] at h; exact absurd h (by simp)
    | some s =>
      rw [hh] at h
      simp only [Option.map_some', Option.some.injEq] at h
      rw [← h]
      exact pyStrip_idem s

theorem sepAtB_cons_succ (a : Char) (t : List Char) (i : Nat) :
    sepAtB (a :: t) (i + 1) = sepAtB t i := by
  simp [sepAtB, List.getElem?_cons_succ]

theorem splitDashL_eq_none_of (l : List Char)
    (h : ∀ i, i < l.length → sepAtB l i = false) : splitDashL l = none := by
  induction l with
  | nil => rfl
  | cons a t ih =>
    cases t with
    | nil => rfl
    | cons b t2 =>
      cases t2 with
      | nil => rfl
      | cons c rest =>
        have h0 : sepAtB (a :: b :: c :: rest) 0 = false := h 0 (by simp)
        have hcond : (pyIsSpace a && (b = '-' || b = '–') && pyIsSpace c) = false := by
          simpa [sepAtB] using h0
        have hnc : ¬ (pyIsSpace a && (b = '-' || b = '–') && pyIsSpace c) = true := by
          rw [hcond]
          simp
        rw [splitDashL, if_neg hnc]
        have ht : splitDashL (b :: c :: rest) = none := by
          apply ih
          intro i hi
          have := h (i + 1) (by simpa using Nat.succ_lt_succ hi)
          rwa [sepAtB_cons_succ] at this
        rw [ht]

theorem splitDashL_eq_some_of (l : List Char) :
    ∀ pre post, splitDashL l = some (pre, post) →
      (∃ a b c, l = pre ++ a :: b :: c :: post ∧ pyIsSpace a = true ∧
        (b = '-' ∨ b = '–') ∧ pyIsSpace c = true) ∧
      ∀ i, i < pre.length → sepAtB l i = false := by
  induction l with
  | nil =>
    intro pre post h
    exact absurd h (by rw [show splitDashL [] = none from rfl]; simp)
  | cons a t ih =>
    cases t with
    | nil =>
      intro pre post h
      exact absurd h (by rw [show splitDashL [a] = none from rfl]; simp)
    | cons b t2 =>
      cases t2 with
      | nil =>
        intro pre post h
        exact absurd h (by rw [show splitDashL [a, b] = none from rfl]; simp)
      | cons c rest =>
        intro pre post h
        rw [splitDashL] at h
        by_cases hcond : (pyIsSpace a && (b = '-' || b = '–') && pyIsSpace c) = true
        · rw [if_pos hcond] at h
          simp only [Option.some.injEq, Prod.mk.injEq] at h
          obtain ⟨hpre, hpost⟩ := h
          subst hpre hpost
          simp only [Bool.and_eq_true, Bool.or_eq_true] at hcond
          obtain ⟨⟨hsa, hbd⟩, hsc⟩ := hcond
          refine ⟨⟨a, b, c, by simp, hsa, ?_, hsc⟩, ?_⟩
          · rcases hbd with hb | hb
            · exact Or.inl (by simpa using hb)
            · exact Or.inr (by simpa using hb)
          · intro i hi
            simp at hi
        · rw [if_neg hcond] at h
          cases hsplit : splitDashL (b :: c :: rest) with
          | none => rw [hsplit] at h; simp at h
          | some pp =>
            obtain ⟨pre', post'⟩ := pp
            rw [hsplit] at h
            simp only [Option.some.injEq, Prod.mk.injEq] at h
            obtain ⟨hpre, hpost⟩ := h
            subst hpre hpost
            obtain ⟨⟨x, y, z, heq, hx, hy, hz⟩, hfirst⟩ := ih pre' post' hsplit
            refine ⟨⟨x, y, z, by rw [List.cons_append, ← heq], hx, hy, hz⟩, ?_⟩
            intro i hi
            cases i with
            | zero =>
              have : (pyIsSpace a && (b = '-' || b = '–') && pyIsSpace c) = false :=
                Bool.eq_false_iff.mpr hcond
              simpa [sepAtB] using this
            | succ j =>
              rw [sepAtB_cons_succ]
              exact hfirst j (by simpa using hi)

/-- Claim C6: `parse_title_author_from_html` splits the raw title text at most
once, at the first occurrence of a dash or en-dash surrounded by whitespace;
the part before (stripped) is the title and the part after (stripped) is the
author; when the raw text has no such separator the full raw text is returned
as the title and the author is absent. -/
theorem c6_parse_title_split (p : TitlePage) (raw : String)
    (hr : rawTitleOf p = some raw) (hne : raw ≠ "") :
    ((∀ i, i < raw.toList.length → sepAtB raw.toList i = false) →
      parse_title_author_from_html p = (some raw, some raw, none)) ∧
    (∀ pre post, splitDashL raw.toList = some (pre, post) →
      parse_title_author_from_html p =
        (some raw, strOrNone (pyStrip pre.asString), strOrNone (pyStrip post.asString)) ∧
      ∃ a b c, raw.toList = pre ++ a :: b :: c :: post ∧ pyIsSpace a = true ∧
        (b = '-' ∨ b = '–') ∧ pyIsSpace c = true ∧
        ∀ i, i < pre.length → sepAtB raw.toList i = false) := by
  constructor
  · intro hnosep
    simp only [parse_title_author_from_html, hr, if_neg hne,
      splitDashL_eq_none_of raw.toList hnosep]
  · intro pre post hsplit
    constructor
    · simp only [parse_title_author_from_html, hr, if_neg hne, hsplit]
    · obtain ⟨⟨a, b, c, heq, ha, hb, hc⟩, hfirst⟩ := splitDashL_eq_some_of raw.toList pre post hsplit
      exact ⟨a, b, c, heq, ha, hb, hc, hfirst⟩

/-- Claim C6, witness: the spec's example title splits into the Bengali title
and author, and a separator-free title is returned whole with no author. -/
theorem c6_parse_title_split_witness :
    parse_title_author_from_html c6page =
      (some "বাংলা কবিতা – রবীন্দ্রনাথ ঠাকুর", some "বাংলা কবিতা", some "রবীন্দ্রনাথ ঠাকুর") ∧
    parse_title_author_from_html c6pageNoDash = (some "ab", some "ab", none) := by
  constructor
  · have h := ((c6_parse_title_split c6page "বাংলা কবিতা – রবীন্দ্রনাথ ঠাকুর" rfl
      (by decide)).2 "বাংলা কবিতা".toList "রবীন্দ্রনাথ ঠাকুর".toList rfl).1
    rw [h]
    rfl
  · exact (c6_parse_title_split c6pageNoDash "ab" rfl (by decide)).1 (by decide)

/-- Claim C10: each component returned by `parse_title_author_from_html` is
either absent or a non-empty whitespace-trimmed string; the empty string is
never returned. -/
theorem c10_parse_components_trimmed_nonempty (p : TitlePage) :
    (∀ s, (parse_title_author_from_html p).1 = some s → pyStrip s = s ∧ s ≠ "") ∧
    (∀ s, (parse_title_author_from_html p).2.1 = some s → pyStrip s = s ∧ s ≠ "") ∧
    (∀ s, (parse_title_author_from_html p).2.2 = some s → pyStrip s = s ∧ s ≠ "") := by
  cases hr : rawTitleOf p with
  | none =>
    have hp : parse_title_author_from_html p = (none, none, none) := by
      simp only [parse_title_author_from_html, hr]
    rw [hp]
    exact ⟨fun s h => absurd h (by simp), fun s h => absurd h (by simp),
      fun s h => absurd h (by simp)⟩
  | some raw =>
    by_cases hne : raw = ""
    · have hp : parse_title_author_from_html p = (none, none, none) := by
        simp only [parse_title_author_from_html, hr, if_pos hne]
      rw [hp]
      exact ⟨fun s h => absurd h (by simp), fun s h => absurd h (by simp),
        fun s h => absurd h (by simp)⟩
    · have hstrip : pyStrip raw = raw := rawTitleOf_strip p raw hr
      cases hsplit : splitDashL raw.toList with
      | none =>
        have hp : parse_title_author_from_html p = (some raw, some raw, none) := by
          simp only [parse_title_author_from_html, hr, if_neg hne, hsplit]
        rw [hp]
        refine ⟨?_, ?_, fun s h => absurd h (by simp)⟩
        · intro s h
          simp only [Option.some.injEq] at h
          rw [← h]
          exact ⟨hstrip, hne⟩
        · intro s h
          simp only [Option.some.injEq] at h
          rw [← h]
          exact ⟨hstrip, hne⟩
      | some pp =>
        obtain ⟨pre, post⟩ := pp
        have hp : parse_title_author_from_html p =
            (some raw, strOrNone (pyStrip pre.asString), strOrNone (pyStrip post.asString)) := by
          simp only [parse_title_author_from_html, hr, if_neg hne, hsplit]
        rw [hp]
        refine ⟨?_, ?_, ?_⟩
        · intro s h
          simp only [Option.some.injEq] at h
          rw [← h]
          exact ⟨hstrip, hne⟩
        · intro s h
          obtain ⟨hs, hX⟩ := strOrNone_some h
          rw [hs]
          exact ⟨pyStrip_idem _, hX⟩
        · intro s h
          obtain ⟨hs, hX⟩ := strOrNone_some h
          rw [hs]
          exact ⟨pyStrip_idem _, hX⟩

/-- Claim C10, witness: applied at a page whose title is `" ab "`, whose
parse yields stripped, non-empty components. -/
theorem c10_parse_components_witness :
    pyStrip "ab" = "ab" ∧ "ab" ≠ "" :=
  (c10_parse_components_trimmed_nonempty c6pageNoDash).2.1 "ab" rfl

/-! ## Claim C8: cover-image download validation -/

theorem tryPreloads_spec (web : ImgWeb) (base_url : String) :
    ∀ (ls : List PreloadLink) (u : String) (data : List Nat),
      tryPreloads web base_url ls = some (u, data) →
      ∃ resp, web u = some resp ∧ raisesForStatus resp.status = false ∧
        startsWithL resp.contentType.toList "image/".toList = true ∧ data = resp.content := by
  intro ls
  induction ls with
  | nil => intro u data h; exact absurd h (by simp [tryPreloads])
  | cons l rest ih =>
    intro u data h
    rw [tryPreloads] at h
    split at h
    · split at h
      · split at h
        · rename_i u0 _
          split at h
          · exact ih u data h
          · rename_i resp hweb
            split at h
            · exact ih u data h
            · rename_i hraise
              split at h
              · rename_i himg
                simp only [Option.some.injEq, Prod.mk.injEq] at h
                obtain ⟨hu, hdata⟩ := h
                refine ⟨resp, ?_, ?_, himg, hdata.symm⟩
                · rw [← hu]; exact hweb
                · exact Bool.eq_false_iff.mpr hraise
              · exact ih u data h
        · exact ih u data h
      · exact ih u data h
    · exact ih u data h

theorem tryCandidates_spec (web : ImgWeb) (base_url : String) :
    ∀ (ls : List (String × Nat)) (u : String) (data : List Nat),
      tryCandidates web base_url ls = some (u, data) →
      ∃ resp, web u = some resp ∧ raisesForStatus resp.status = false ∧
        startsWithL resp.contentType.toList "image/".toList = true ∧ data = resp.content := by
  intro ls
  induction ls with
  | nil => intro u data h; exact absurd h (by simp [tryCandidates])
  | cons c rest ih =>
    intro u data h
    obtain ⟨u0, pr⟩ := c
    rw [tryCandidates] at h
    split at h
    · exact ih u data h
    · rename_i resp hweb
      split at h
      · exact ih u data h
      · rename_i hraise
        split at h
        · rename_i himg
          simp only [Option.some.injEq, Prod.mk.injEq] at h
          obtain ⟨hu, hdata⟩ := h
          refine ⟨resp, ?_, Bool.eq_false_iff.mpr hraise, himg, hdata.symm⟩
          rw [← hu]; exact hweb
        · exact ih u data h

/-- Claim C8 (amended): `extract_cover_image` returns a `(url, bytes)` pair
only after an actual download of that URL returned a response that
`raise_for_status` accepts — any status outside `[400, 600)`, which includes
3xx statuses and not only 2xx — with a declared content type beginning with
`image/`; the returned bytes are that response's body.  In every other case
(no candidate, all downloads failed or raised, wrong content type) no cover is
returned, since the only `some` results flow from such a response. -/
theorem c8_cover_requires_accepted_image_download (page : CoverPage) (web : ImgWeb)
    (base_url u : String) (data : List Nat)
    (h : extract_cover_image page web base_url = some (u, data)) :
    ∃ resp, web u = some resp ∧ raisesForStatus resp.status = false ∧
      startsWithL resp.contentType.toList "image/".toList = true ∧ data = resp.content := by
  rw [extract_cover_image] at h
  split at h
  · rename_i r hpre
    simp only [Option.some.injEq] at h
    rw [h] at hpre
    exact tryPreloads_spec web base_url page.preloads u data hpre
  · split at h
    · exact absurd h (by simp)
    · split at h
      · exact absurd h (by simp)
      · exact tryCandidates_spec web base_url _ u data h

/-- Claim C8, counterexample: the preload image answers `304 Not Modified`
with an image content type; `raise_for_status` does not raise on 3xx, so the
code returns the cover although the status is not 2xx — the claim's "2xx HTTP
status" is not what the code enforces. -/
theorem c8_cover_not_2xx_cex :
    extract_cover_image c8page c8web "http://h/page" = some ("http://h/c.png", [137, 80]) ∧
    c8web "http://h/c.png" = some ⟨304, "image/png", [137, 80]⟩ ∧
    ¬(200 ≤ 304 ∧ 304 < 300) :=
  ⟨rfl, rfl, by omega⟩

/-- Claim C8, witness: the amended theorem applied to the concrete page and
fetcher of the counterexample. -/
theorem c8_cover_witness :
    ∃ resp, c8web "http://h/c.png" = some resp ∧ raisesForStatus resp.status = false ∧
      startsWithL resp.contentType.toList "image/".toList = true ∧ [137, 80] = resp.content :=
  c8_cover_requires_accepted_image_download c8page c8web "http://h/page" "http://h/c.png"
    [137, 80] rfl

/-! ## Claim C3: scored-container selection -/

theorem pickBest_none_of_all_le (l : List HNode)
    (h : ∀ m ∈ l, textLenStrip m ≤ 300) : pickBest none l = none := by
  induction l with
  | nil => rfl
  | cons n rest ih =>
    rw [pickBest]
    rw [if_neg]
    · exact ih (fun m hm => h m (by simp [hm]))
    · intro hc
      simp only [Bool.and_eq_true, decide_eq_true_eq] at hc
      exact absurd (h n (by simp)) (by omega)

theorem pickBest_some_spec :
    ∀ (l : List HNode) (bl : Nat) (bn : HNode) (b : Option (Nat × HNode)),
      (∀ bl0 bn0, b = some (bl0, bn0) → bl0 = textLenStrip bn0 ∧ 300 < bl0) →
      pickBest b l = some (bl, bn) →
      (bl = textLenStrip bn ∧ 300 < bl) ∧
      (∀ m ∈ l, textLenStrip m ≤ bl) ∧
      (b = some (bl, bn) ∨
        (∃ pre post, l = pre ++ bn :: post ∧
          (∀ m ∈ pre, textLenStrip m < bl) ∧
          (∀ bl0 bn0, b = some (bl0, bn0) → bl0 < bl))) := by
  intro l
  induction l with
  | nil =>
    intro bl bn b hb h
    simp only [pickBest] at h
    exact ⟨hb bl bn h, by simp, Or.inl h⟩
  | cons n rest ih =>
    intro bl bn b hb h
    simp only [pickBest] at h
    split at h
    · rename_i hcond
      simp only [Bool.and_eq_true, decide_eq_true_eq] at hcond
      obtain ⟨h300, hbeat⟩ := hcond
      have hb2 : ∀ bl0 bn0, (some (textLenStrip n, n) : Option (Nat × HNode)) = some (bl0, bn0) →
          bl0 = textLenStrip bn0 ∧ 300 < bl0 := by
        intro bl0 bn0 he
        simp only [Option.some.injEq, Prod.mk.injEq] at he
        obtain ⟨he1, he2⟩ := he
        rw [← he1, ← he2]
        exact ⟨rfl, h300⟩
      obtain ⟨hval, hmax, hpos⟩ := ih bl bn (some (textLenStrip n, n)) hb2 h
      have hnle : textLenStrip n ≤ bl := by
        rcases hpos with he | ⟨pre, post, _, _, hlt⟩
        · simp only [Option.some.injEq, Prod.mk.injEq] at he
          omega
        · exact Nat.le_of_lt (hlt (textLenStrip n) n rfl)
      refine ⟨hval, ?_, ?_⟩
      · intro m hm
        rcases List.mem_cons.mp hm with rfl | hm2
        · exact hnle
        · exact hmax m hm2
      · rcases hpos with he | ⟨pre, post, hdec, hpre, hlt⟩
        · simp only [Option.some.injEq, Prod.mk.injEq] at he
          obtain ⟨he1, he2⟩ := he
          refine Or.inr ⟨[], rest, by rw [he2]; rfl, by simp, ?_⟩
          intro bl0 bn0 hb0
          rw [hb0] at hbeat
          simp only [decide_eq_true_eq] at hbeat
          omega
        · refine Or.inr ⟨n :: pre, post, by rw [hdec]; rfl, ?_, ?_⟩
          · intro m hm
            rcases List.mem_cons.mp hm with rfl | hm2
            · exact hlt (textLenStrip m) m rfl
            · exact hpre m hm2
          · intro bl0 bn0 hb0
            have hn_lt : textLenStrip n < bl := hlt (textLenStrip n) n rfl
            rw [hb0] at hbeat
            simp only [decide_eq_true_eq] at hbeat
            omega
    · rename_i hcond
      obtain ⟨hval, hmax, hpos⟩ := ih bl bn b hb h
      have hn_le : textLenStrip n ≤ bl := by
        by_cases h300 : 300 < textLenStrip n
        · by_cases hbn : b = none
          · exact absurd (by simp [h300, hbn]) hcond
          · obtain ⟨⟨bl0, bn0⟩, hb0⟩ := Option.ne_none_iff_exists'.mp hbn
            have hv0 := hb bl0 bn0 hb0
            by_cases hbeat : bl0 < textLenStrip n
            · exact absurd (by simp [h300, hb0, hbeat]) hcond
            · have hbl0_le : bl0 ≤ bl := by
                rcases hpos with he | ⟨pre, post, _, _, hlt⟩
                · rw [hb0] at he
                  simp only [Option.some.injEq, Prod.mk.injEq] at he
                  omega
                · exact Nat.le_of_lt (hlt bl0 bn0 hb0)
              omega
        · have := hval.2
          omega
      refine ⟨hval, ?_, ?_⟩
      · intro m hm
        rcases List.mem_cons.mp hm with rfl | hm2
        · exact hn_le
        · exact hmax m hm2
      · rcases hpos with he | ⟨pre, post, hdec, hpre, hlt⟩
        · exact Or.inl he
        · refine Or.inr ⟨n :: pre, post, by rw [hdec]; rfl, ?_, hlt⟩
          intro m hm
          rcases List.mem_cons.mp hm with rfl | hm2
          · by_cases h300 : 300 < textLenStrip m
            · by_cases hbn : b = none
              · exact absurd (by simp [h300, hbn]) hcond
              · obtain ⟨⟨bl0, bn0⟩, hb0⟩ := Option.ne_none_iff_exists'.mp hbn
                by_cases hbeat : bl0 < textLenStrip m
                · exact absurd (by simp [h300, hb0, hbeat]) hcond
                · exact Nat.lt_of_le_of_lt (Nat.le_of_not_lt hbeat) (hlt bl0 bn0 hb0)
            · have := hval.2
              omega
          · exact hpre m hm2

/-- Claim C3: in the scored-container tier, a selected container is a
candidate whose visible-text length exceeds 300 and is maximal among all
candidates, and it is the first-encountered candidate achieving that length
(every earlier candidate is strictly shorter, since only a strict comparison
updates the best); when no candidate exceeds 300 characters, no container is
selected and extraction sanitizes and heading-deduplicates the whole body. -/
theorem c3_scored_container_selection (doc : List HNode) :
    (∀ n, extract_fallback_best doc = some n →
      n ∈ candidatesOf doc ∧ 300 < textLenStrip n ∧
      (∀ m ∈ candidatesOf doc, textLenStrip m ≤ textLenStrip n) ∧
      (∃ pre post, candidatesOf doc = pre ++ n :: post ∧
        ∀ m ∈ pre, textLenStrip m < textLenStrip n) ∧
      extract_content_fallback doc =
        (extract_content_title doc,
          strip_redundant_headings (extract_content_title doc) (sanitize_article_html [n]))) ∧
    ((∀ m ∈ candidatesOf doc, textLenStrip m ≤ 300) →
      extract_fallback_best doc = none ∧
      extract_content_fallback doc =
        (extract_content_title doc,
          strip_redundant_headings (extract_content_title doc) (sanitize_article_html doc))) := by
  constructor
  · intro n hn
    rw [extract_fallback_best] at hn
    cases hpick : pickBest none (candidatesOf doc) with
    | none => rw [hpick] at hn; exact absurd hn (by simp)
    | some p =>
      obtain ⟨bl, bn⟩ := p
      rw [hpick] at hn
      simp only [Option.map_some', Option.some.injEq] at hn
      obtain ⟨hval, hmax, hpos⟩ := pickBest_some_spec (candidatesOf doc) bl bn none
        (fun bl0 bn0 he => absurd he (by simp)) hpick
      rcases hpos with he | ⟨pre, post, hdec, hpre, _⟩
      · exact absurd he (by simp)
      · rw [← hn]
        have hmem : bn ∈ candidatesOf doc := by
          rw [hdec]
          exact List.mem_append.mpr (Or.inr (by simp))
        refine ⟨hmem, by rw [← hval.1]; exact hval.2, ?_, ⟨pre, post, hdec, ?_⟩, ?_⟩
        · intro m hm
          rw [← hval.1]
          exact hmax m hm
        · intro m hm
          rw [← hval.1]
          exact hpre m hm
        · rw [extract_content_fallback, hpick]
  · intro hall
    have hpick : pickBest none (candidatesOf doc) = none := pickBest_none_of_all_le _ hall
    constructor
    · rw [extract_fallback_best, hpick]
      rfl
    · rw [extract_content_fallback, hpick]

set_option maxRecDepth 20000 in
/-- Claim C3, witness: a document holding a 400-character `article` (and a
heading); the article is selected, dominates all candidates, and extraction
sanitizes it. -/
theorem c3_scored_container_witness :
    c3article ∈ candidatesOf c3doc ∧ 300 < textLenStrip c3article ∧
    (∀ m ∈ candidatesOf c3doc, textLenStrip m ≤ textLenStrip c3article) ∧
    (∃ pre post, candidatesOf c3doc = pre ++ c3article :: post ∧
      ∀ m ∈ pre, textLenStrip m < textLenStrip c3article) ∧
    extract_content_fallback c3doc =
      (extract_content_title c3doc,
        strip_redundant_headings (extract_content_title c3doc)
          (sanitize_article_html [c3article])) :=
  (c3_scored_container_selection c3doc).1 c3article rfl

/-! ## URL-shape lemmas for the discovery invariants -/

theorem ne_hash_of_valid {c : Char} (h : validSchemeChar c = true) :
    decide (c ≠ '#') = true := by
  simp only [decide_eq_true_eq]
  intro heq
  rw [heq] at h
  exact absurd h (by decide)

theorem schemeSplit_some_shape {l s r : List Char} (h : schemeSplit l = some (s, r)) :
    l = s ++ ':' :: r ∧ s ≠ [] ∧ ∀ c ∈ s, validSchemeChar c = true := by
  rw [schemeSplit, drop_takeWhile_length] at h
  split at h
  · rename_i r2 hd
    split at h
    · exact absurd h (by simp)
    · rename_i hne
      simp only [Option.some.injEq, Prod.mk.injEq] at h
      obtain ⟨hs, hr⟩ := h
      refine ⟨?_, ?_, ?_⟩
      · rw [← hs, ← hr, ← hd, List.takeWhile_append_dropWhile]
      · rw [← hs]
        intro hnil
        rw [hnil] at hne
        exact hne rfl
      · intro c hc
        rw [← hs] at hc
        exact List.mem_takeWhile_imp hc
  · exact absurd h (by simp)

theorem schemeSplit_construct {s r : List Char} (hs : s ≠ [])
    (hv : ∀ c ∈ s, validSchemeChar c = true) :
    schemeSplit (s ++ ':' :: r) = some (s, r) := by
  have ht : (s ++ ':' :: r).takeWhile validSchemeChar = s := by
    rw [takeWhile_append_all validSchemeChar s (':' :: r) hv, List.takeWhile_cons]
    rw [show validSchemeChar ':' = false from by decide]
    simp
  rw [schemeSplit, ht, List.drop_left]
  have hemp : s.isEmpty = false := by
    cases s with
    | nil => exact absurd rfl hs
    | cons a as => rfl
  simp [hemp]

theorem takeWhile_hash_shape {s t : List Char} (hv : ∀ c ∈ s, validSchemeChar c = true) :
    (s ++ ':' :: t).takeWhile (fun c => decide (c ≠ '#')) =
      s ++ ':' :: t.takeWhile (fun c => decide (c ≠ '#')) := by
  rw [takeWhile_append_all _ s (':' :: t) (fun c hc => ne_hash_of_valid (hv c hc)),
    List.takeWhile_cons]
  simp

theorem goodScheme_of_shape {u : String} {s t : List Char} (hu : u.toList = s ++ ':' :: t)
    (hs : s ≠ []) (hv : ∀ c ∈ s, validSchemeChar c = true)
    (hm : s ≠ "mailto".toList) (htl : s ≠ "tel".toList) : goodScheme u = true := by
  rw [goodScheme, hu, schemeSplit_construct hs hv]
  simp only [Bool.and_eq_true, decide_eq_true_eq]
  exact ⟨hm, htl⟩

theorem goodScheme_elim {u : String} (h : goodScheme u = true) :
    ∃ s t, u.toList = s ++ ':' :: t ∧ s ≠ [] ∧ (∀ c ∈ s, validSchemeChar c = true) ∧
      s ≠ "mailto".toList ∧ s ≠ "tel".toList := by
  cases hsp : schemeSplit u.toList with
  | none => rw [goodScheme, hsp] at h; exact absurd h (by simp)
  | some p =>
    obtain ⟨s, r⟩ := p
    simp only [goodScheme, hsp, Bool.and_eq_true, decide_eq_true_eq] at h
    obtain ⟨hu, hs, hv⟩ := schemeSplit_some_shape hsp
    exact ⟨s, r, hu, hs, hv, h.1, h.2⟩

theorem toList_asString_append (s : List Char) (a : String) :
    (s.asString ++ a).toList = s ++ a.toList := by
  rw [toList_append]
  rfl

theorem rootOf_shape {base : String} {sb rb : List Char}
    (hsp : schemeSplit base.toList = some (sb, rb)) :
    ∃ x, (rootOf base).toList = sb ++ ':' :: x := by
  have hform : rootOf base =
      (match netSplit rb with
        | some (n, _) => sb.asString ++ "://" ++ n.asString
        | none => sb.asString ++ ":") := by
    simp only [rootOf, hsp]
  cases hnet : netSplit rb with
  | some p =>
    obtain ⟨n, rest⟩ := p
    refine ⟨'/' :: '/' :: n, ?_⟩
    rw [hform, hnet]
    rw [toList_append, toList_asString_append sb "://"]
    rw [List.append_assoc]
    rfl
  | none =>
    refine ⟨[], ?_⟩
    rw [hform, hnet]
    rw [toList_asString_append sb ":"]
    rfl

theorem urljoin_shape (base url : String) (hb : goodScheme base = true) (hne : url ≠ "") :
    ∃ s t, (urljoin base url).toList = s ++ ':' :: t ∧ s ≠ [] ∧
      (∀ c ∈ s, validSchemeChar c = true) ∧
      (s = "mailto".toList → startsWithL url.toList "mailto:".toList = true) ∧
      (s = "tel".toList → startsWithL url.toList "tel:".toList = true) := by
  obtain ⟨sb, rb, hbase, hbs, hbv, hbm, hbt⟩ := goodScheme_elim hb
  have hsp : schemeSplit base.toList = some (sb, rb) := by
    rw [hbase]
    exact schemeSplit_construct hbs hbv
  rw [urljoin, if_neg hne]
  by_cases hus : (schemeSplit url.toList).isSome
  · rw [if_pos hus]
    obtain ⟨⟨su, ru⟩, hsu⟩ := Option.isSome_iff_exists.mp hus
    obtain ⟨huu, hus2, huv⟩ := schemeSplit_some_shape hsu
    refine ⟨su, ru, huu, hus2, huv, ?_, ?_⟩
    · intro hsm
      rw [huu, hsm]
      rw [show ("mailto:".toList : List Char) = "mailto".toList ++ [':'] from rfl]
      rw [startsWithL, List.isPrefixOf_iff_prefix]
      exact ⟨ru, by simp⟩
    · intro hsm
      rw [huu, hsm]
      rw [show ("tel:".toList : List Char) = "tel".toList ++ [':'] from rfl]
      rw [startsWithL, List.isPrefixOf_iff_prefix]
      exact ⟨ru, by simp⟩
  · rw [if_neg hus]
    obtain ⟨x, hroot⟩ := rootOf_shape hsp
    split
    · refine ⟨sb, url.toList, ?_, hbs, hbv, fun hx => absurd hx hbm, fun hx => absurd hx hbt⟩
      have hform : (match schemeSplit base.toList with
          | some (s, _) => s.asString ++ ":" ++ url
          | none => url) = sb.asString ++ ":" ++ url := by
        simp only [hsp]
      rw [hform, toList_append, toList_asString_append sb ":", List.append_assoc]
      rfl
    · refine ⟨sb, x ++ url.toList, ?_, hbs, hbv, fun hx => absurd hx hbm,
        fun hx => absurd hx hbt⟩
      rw [toList_append, hroot, List.append_assoc]
      rfl
    · refine ⟨sb, (rb.takeWhile fun c => decide (c ≠ '#')) ++ url.toList, ?_, hbs, hbv,
        fun hx => absurd hx hbm, fun hx => absurd hx hbt⟩
      rw [toList_append, stripFragment, toList_asString, hbase, takeWhile_hash_shape hbv,
        List.append_assoc]
      rfl
    · refine ⟨sb, x ++ ((pathOnly base) ++ url.toList), ?_, hbs, hbv,
        fun hx => absurd hx hbm, fun hx => absurd hx hbt⟩
      rw [toList_append, toList_append, hroot, toList_asString, List.append_assoc,
        List.append_assoc]
      rfl
    · refine ⟨sb, x ++ (((if (dirOfPath (pathOnly base)).isEmpty then "/" else
        (dirOfPath (pathOnly base)).asString) : String).toList ++ url.toList), ?_, hbs, hbv,
        fun hx => absurd hx hbm, fun hx => absurd hx hbt⟩
      rw [toList_append, toList_append, hroot, List.append_assoc, List.append_assoc]
      rfl

theorem clean_link_ok {base href u : String} (hb : goodScheme base = true)
    (h : clean_link base href = some u) : cleanUrlOk u = true := by
  rw [clean_link] at h
  split at h
  · exact absurd h (by simp)
  · rename_i hne
    split at h
    · exact absurd h (by simp)
    · rename_i hpre
      dsimp only at h
      split at h
      · exact absurd h (by simp)
      · rename_i hasset
        simp only [Option.some.injEq] at h
        obtain ⟨s, t, hshape, hs, hv, hm, htl⟩ := urljoin_shape base href hb hne
        have hu : u.toList = s ++ ':' :: t.takeWhile (fun c => decide (c ≠ '#')) := by
          rw [← h, urldefrag, stripFragment, toList_asString, hshape, takeWhile_hash_shape hv]
        have hgood : goodScheme u = true := by
          refine goodScheme_of_shape hu hs hv ?_ ?_
          · intro hsm
            rw [Bool.or_eq_true] at hpre
            exact hpre (Or.inl (hm hsm))
          · intro hsm
            rw [Bool.or_eq_true] at hpre
            exact hpre (Or.inr (htl hsm))
        have hfrag : noFragmentChar u = true := by
          rw [noFragmentChar, List.all_eq_true]
          intro c hc
          rw [← h, urldefrag, stripFragment, toList_asString] at hc
          have h2 : (fun c => decide (c ≠ '#')) c = true :=
            List.mem_takeWhile_imp (l := (urljoin base href).toList) hc
          simpa using h2
        have hassetf : assetLike u = false := by
          rw [← h]
          exact Bool.eq_false_iff.mpr hasset
        rw [cleanUrlOk, hgood, hfrag, hassetf]
        rfl

theorem goodScheme_of_clean {base href u : String} (hb : goodScheme base = true)
    (h : clean_link base href = some u) : goodScheme u = true := by
  have := clean_link_ok hb h
  rw [cleanUrlOk, Bool.and_eq_true] at this
  exact this.1

/-! ## Claim C1: phase-1 lesson extraction and the domain filter -/

theorem extractLessonsGo_mem (start_url : String) :
    ∀ (anchors seen : List String) (u : String), u ∈ extractLessonsGo start_url seen anchors →
      (∃ href, clean_link start_url href = some u) ∧ same_domain start_url u = true ∧
        u ∉ seen := by
  intro anchors
  induction anchors with
  | nil =>
    intro seen u h
    exact absurd h (by simp [extractLessonsGo])
  | cons href rest ih =>
    intro seen u h
    rw [extractLessonsGo] at h
    split at h
    · exact ih seen u h
    · split at h
      · exact ih seen u h
      · rename_i abs heq
        split at h
        · exact ih seen u h
        · rename_i hsd
          split at h
          · exact ih seen u h
          · rename_i hseen
            rcases List.mem_cons.mp h with rfl | h2
            · refine ⟨⟨href, heq⟩, ?_, hseen⟩
              simpa using hsd
            · obtain ⟨hc, hd, hs⟩ := ih (abs :: seen) u h2
              exact ⟨hc, hd, fun hu => hs (List.mem_cons_of_mem abs hu)⟩

theorem extractLessonsGo_nodup (start_url : String) :
    ∀ (anchors seen : List String), (extractLessonsGo start_url seen anchors).Nodup := by
  intro anchors
  induction anchors with
  | nil => intro seen; simp [extractLessonsGo]
  | cons href rest ih =>
    intro seen
    rw [extractLessonsGo]
    split
    · exact ih seen
    · split
      · exact ih seen
      · rename_i abs heq
        split
        · exact ih seen
        · split
          · exact ih seen
          · rw [List.nodup_cons]
            refine ⟨?_, ih (abs :: seen)⟩
            intro habs
            exact (extractLessonsGo_mem start_url rest (abs :: seen) abs habs).2.2
              (List.mem_cons_self abs seen)

/-- Claim C1, counterexample: with `allowOutsideDomain = true` the start page
holds a same-domain and an outside-domain lesson link; the outside link is
not kept in the returned list, because `extract_lessons_from_book_page`
unconditionally filters to the seed's domain before `discover_links` ever
consults `allow_outside`. -/
theorem c1_outside_lesson_dropped_cex :
    containsSub "http://other.com/lessons/b1/" "/lessons/" = true ∧
    discover_links c1web "http://www.ex.com/books/b1/" 1 true none none 100 =
      ["http://www.ex.com/lessons/a1/"] ∧
    "http://other.com/lessons/b1/" ∉
      discover_links c1web "http://www.ex.com/books/b1/" 1 true none none 100 := by
  refine ⟨by decide, by decide, by decide⟩

/-- Claim C1 (amended): in phase 1 (direct extraction) of `discover_links`,
anchors whose `href` contains a lesson/topic path segment are resolved to
absolute URLs and always filtered to the seed's domain, regardless of
`allow_outside`: every link extracted by `extract_lessons_from_book_page` is
same-domain with the seed, and whenever phase 1 produces the returned list,
every returned link is same-domain with the seed. -/
theorem c1_phase1_always_domain_filtered (start_url : String) (anchors : List String) :
    (∀ u ∈ extract_lessons_from_book_page start_url anchors,
      same_domain start_url u = true) ∧
    (∀ (web : Web) (md : Nat) (ao : Bool) (inc exc : Option (String → Bool)) (mp : Nat),
      web start_url = some anchors →
      extract_lessons_from_book_page start_url anchors ≠ [] →
      ∀ u ∈ discover_links web start_url md ao inc exc mp,
        same_domain start_url u = true) := by
  have hdom : ∀ u ∈ extract_lessons_from_book_page start_url anchors,
      same_domain start_url u = true := by
    intro u hu
    exact (extractLessonsGo_mem start_url anchors [] u hu).2.1
  refine ⟨hdom, ?_⟩
  intro web md ao inc exc mp hweb hne u hu
  rw [discover_links, hweb] at hu
  dsimp only at hu
  cases hx : extract_lessons_from_book_page start_url anchors with
  | nil => exact absurd hx hne
  | cons l1 ls =>
    rw [hx] at hu
    dsimp only at hu
    have h1 := List.Sublist.mem hu (List.take_sublist _ _)
    have h2 : u ∈ l1 :: ls := by
      by_cases hao : ao
      · rw [if_pos hao] at h1
        cases exc with
        | none =>
          cases inc with
          | none => exact h1
          | some f => exact (List.mem_filter.mp h1).1
        | some g =>
          have h3 := (List.mem_filter.mp h1).1
          cases inc with
          | none => exact h3
          | some f => exact (List.mem_filter.mp h3).1
      · rw [if_neg hao] at h1
        have h3 := (List.mem_filter.mp h1).1
        cases exc with
        | none =>
          cases inc with
          | none => exact h3
          | some f => exact (List.mem_filter.mp h3).1
        | some g =>
          have h4 := (List.mem_filter.mp h3).1
          cases inc with
          | none => exact h4
          | some f => exact (List.mem_filter.mp h4).1
    rw [← hx] at h2
    exact hdom u h2

/-- Claim C1, witness: the amended theorem applied at the concrete start page
of the counterexample (whose phase 1 yields the same-domain lesson link). -/
theorem c1_phase1_domain_witness :
    same_domain "http://www.ex.com/books/b1/" "http://www.ex.com/lessons/a1/" = true :=
  (c1_phase1_always_domain_filtered "http://www.ex.com/books/b1/"
      ["http://www.ex.com/lessons/a1/", "http://other.com/lessons/b1/"]).2
    c1web 1 true none none 100 rfl (by decide)
    "http://www.ex.com/lessons/a1/" (by decide)

/-! ## BFS fallback invariants (claims C4 and C7) -/

theorem collectGo_spec (start_url : String) (ao : Bool) (inc exc : Option (String → Bool))
    (page_url : String) (hp : goodScheme page_url = true) :
    ∀ (anchors found : List String),
      (∀ u ∈ found, cleanUrlOk u = true) → found.Nodup →
      (∀ u ∈ collectGo start_url ao inc exc page_url found anchors, cleanUrlOk u = true) ∧
      (collectGo start_url ao inc exc page_url found anchors).Nodup := by
  intro anchors
  induction anchors with
  | nil =>
    intro found h1 h2
    exact ⟨h1, h2⟩
  | cons href rest ih =>
    intro found h1 h2
    rw [collectGo]
    split
    · exact ih found h1 h2
    · rename_i link heq
      split
      · split
        · exact ih found h1 h2
        · rename_i hnotmem
          refine ih (found ++ [link]) ?_ ?_
          · intro u hu
            rcases List.mem_append.mp hu with hu1 | hu2
            · exact h1 u hu1
            · rw [List.mem_singleton.mp hu2]
              exact clean_link_ok hp heq
          · rw [List.nodup_append]
            exact ⟨h2, List.nodup_singleton link, fun a ha hb => by
              rw [List.mem_singleton.mp hb] at ha
              exact hnotmem ha⟩
      · exact ih found h1 h2

theorem enqueueGo_good (start_url : String) (ao : Bool) (inc exc : Option (String → Bool))
    (page_url : String) (hp : goodScheme page_url = true) :
    ∀ (anchors visited : List String) (cnt : Nat) (u : String),
      u ∈ enqueueGo start_url ao inc exc page_url visited cnt anchors →
      goodScheme u = true := by
  intro anchors
  induction anchors with
  | nil =>
    intro visited cnt u h
    exact absurd h (by simp [enqueueGo])
  | cons href rest ih =>
    intro visited cnt u h
    rw [enqueueGo] at h
    split at h
    · exact ih visited cnt u h
    · rename_i link heq
      split at h
      · exact ih visited cnt u h
      · split at h
        · rcases List.mem_cons.mp h with rfl | h2
          · exact goodScheme_of_clean hp heq
          · split at h2
            · exact absurd h2 (by simp)
            · exact ih visited (cnt + 1) u h2
        · exact ih visited cnt u h

theorem bfsGo_found_ok (web : Web) (start_url : String) (ao : Bool)
    (inc exc : Option (String → Bool)) (md mp : Nat) :
    ∀ (queue : List (String × Nat)) (visited found : List String),
      (∀ p ∈ queue, goodScheme p.1 = true) →
      (∀ u ∈ found, cleanUrlOk u = true) →
      found.Nodup →
      (∀ u ∈ (bfsGo web start_url ao inc exc md mp queue visited found).1,
        cleanUrlOk u = true) ∧
      (bfsGo web start_url ao inc exc md mp queue visited found).1.Nodup := by
  intro queue visited found
  induction queue, visited, found using bfsGo.induct web start_url ao inc exc md mp with
  | case1 visited found =>
    intro _ h2 h3
    rw [bfsGo]
    exact ⟨h2, h3⟩
  | case2 url depth queue visited found hguard =>
    intro _ h2 h3
    rw [bfsGo, if_pos hguard]
    exact ⟨h2, h3⟩
  | case3 url depth queue visited found hguard hmem ih =>
    intro h1 h2 h3
    rw [bfsGo, if_neg hguard, if_pos hmem]
    exact ih (fun p hp => h1 p (List.mem_cons_of_mem _ hp)) h2 h3
  | case4 url depth queue visited found hguard hmem hnone ih =>
    intro h1 h2 h3
    rw [bfsGo, if_neg hguard, if_neg hmem, hnone]
    exact ih (fun p hp => h1 p (List.mem_cons_of_mem _ hp)) h2 h3
  | case5 url depth queue visited found hguard hmem anchors hweb ih =>
    intro h1 h2 h3
    rw [bfsGo, if_neg hguard, if_neg hmem, hweb]
    have hurl : goodScheme url = true := h1 (url, depth) (List.mem_cons_self _ _)
    obtain ⟨hc1, hc2⟩ := collectGo_spec start_url ao inc exc url hurl anchors found h2 h3
    refine ih ?_ hc1 hc2
    intro p hp
    by_cases hd : depth < md
    · rw [dif_pos hd] at hp
      rcases List.mem_append.mp hp with hp1 | hp2
      · exact h1 p (List.mem_cons_of_mem _ hp1)
      · obtain ⟨l, hl, rfl⟩ := List.mem_map.mp hp2
        exact enqueueGo_good start_url ao inc exc url hurl anchors (url :: visited) 0 l hl
    · rw [dif_neg hd] at hp
      exact h1 p (List.mem_cons_of_mem _ hp)

theorem bfsGo_visited_le (web : Web) (start_url : String) (ao : Bool)
    (inc exc : Option (String → Bool)) (md mp : Nat) :
    ∀ (queue : List (String × Nat)) (visited found : List String),
      visited.length ≤ mp →
      (bfsGo web start_url ao inc exc md mp queue visited found).2.length ≤ mp := by
  intro queue visited found
  induction queue, visited, found using bfsGo.induct web start_url ao inc exc md mp with
  | case1 visited found =>
    intro h
    rw [bfsGo]
    exact h
  | case2 url depth queue visited found hguard =>
    intro h
    rw [bfsGo, if_pos hguard]
    exact h
  | case3 url depth queue visited found hguard hmem ih =>
    intro h
    rw [bfsGo, if_neg hguard, if_pos hmem]
    exact ih h
  | case4 url depth queue visited found hguard hmem hnone ih =>
    intro _
    rw [bfsGo, if_neg hguard, if_neg hmem, hnone]
    refine ih ?_
    rw [List.length_cons]
    omega
  | case5 url depth queue visited found hguard hmem anchors hweb ih =>
    intro _
    rw [bfsGo, if_neg hguard, if_neg hmem, hweb]
    refine ih ?_
    rw [List.length_cons]
    omega

theorem stableInsert_perm {α : Type} (le : α → α → Bool) (x : α) :
    ∀ l : List α, (stableInsert le x l).Perm (x :: l) := by
  intro l
  induction l with
  | nil => exact List.Perm.refl _
  | cons y ys ih =>
    rw [stableInsert]
    split
    · exact List.Perm.refl _
    · exact List.Perm.trans (List.Perm.cons y ih) (List.Perm.swap x y ys)

theorem stableSort_perm {α : Type} (le : α → α → Bool) :
    ∀ l : List α, (stableSort le l).Perm l := by
  intro l
  induction l with
  | nil => exact List.Perm.refl _
  | cons x xs ih =>
    rw [stableSort]
    exact List.Perm.trans (stableInsert_perm le x (stableSort le xs)) (List.Perm.cons x ih)

theorem mem_stableSort {α : Type} {le : α → α → Bool} {l : List α} {a : α} :
    a ∈ stableSort le l ↔ a ∈ l :=
  (stableSort_perm le l).mem_iff

theorem stableSort_nodup {α : Type} {le : α → α → Bool} {l : List α} (h : l.Nodup) :
    (stableSort le l).Nodup :=
  (stableSort_perm le l).symm.nodup h

/-- Claim C7: the BFS fallback of `discover_links` is a total function (its
recursion is well-founded on the pair `(max_pages - visited, queue length)`,
so the traversal halts when the queue empties or the visited count reaches
`max_pages`); the number of visited (fetched) pages never exceeds `max_pages`
— in particular at most 100 pages for `maxPages = 100` — and the seed URL
itself never appears in the returned list. -/
theorem c7_bfs_bounded_and_excludes_seed (web : Web) (start_url : String) (md : Nat)
    (ao : Bool) (inc exc : Option (String → Bool)) (mp : Nat) :
    (discover_links_bfs web start_url md ao inc exc mp).2.length ≤ mp ∧
    start_url ∉ (discover_links_bfs web start_url md ao inc exc mp).1 := by
  rw [discover_links_bfs]
  cases hbfs : bfsGo web start_url ao inc exc md mp [(start_url, 0)] [] [] with
  | mk found visited =>
    dsimp only
    constructor
    · have hle := bfsGo_visited_le web start_url ao inc exc md mp [(start_url, 0)] [] []
        (by simp)
      rw [hbfs] at hle
      exact hle
    · intro hmem
      have h1 := List.Sublist.mem hmem (List.take_sublist _ _)
      have h2 := mem_stableSort.mp h1
      have h3 := List.mem_filter.mp h2
      simp at h3

theorem discover_links_bfs_ok (web : Web) (start_url : String) (md : Nat) (ao : Bool)
    (inc exc : Option (String → Bool)) (mp : Nat) (hb : goodScheme start_url = true) :
    (∀ u ∈ (discover_links_bfs web start_url md ao inc exc mp).1, cleanUrlOk u = true) ∧
    (discover_links_bfs web start_url md ao inc exc mp).1.Nodup := by
  rw [discover_links_bfs]
  cases hbfs : bfsGo web start_url ao inc exc md mp [(start_url, 0)] [] [] with
  | mk found visited =>
    dsimp only
    obtain ⟨hok, hnd⟩ := bfsGo_found_ok web start_url ao inc exc md mp [(start_url, 0)] [] []
      (by
        intro p hp
        rw [List.mem_singleton.mp hp]
        exact hb)
      (by simp) (by simp)
    rw [hbfs] at hok hnd
    constructor
    · intro u hu
      exact hok u (List.mem_filter.mp (mem_stableSort.mp
        (List.Sublist.mem hu (List.take_sublist _ _)))).1
    · exact List.Sublist.nodup (List.take_sublist _ _)
        (stableSort_nodup (List.Nodup.filter _ hnd))

theorem discover_links_ok (web : Web) (start_url : String) (md : Nat) (ao : Bool)
    (inc exc : Option (String → Bool)) (mp : Nat) (hb : goodScheme start_url = true) :
    (∀ u ∈ discover_links web start_url md ao inc exc mp, cleanUrlOk u = true) ∧
    (discover_links web start_url md ao inc exc mp).Nodup := by
  rw [discover_links]
  cases hw : web start_url with
  | none => exact discover_links_bfs_ok web start_url md ao inc exc mp hb
  | some anchors =>
    dsimp only
    cases hx : extract_lessons_from_book_page start_url anchors with
    | nil => exact discover_links_bfs_ok web start_url md ao inc exc mp hb
    | cons l1 ls =>
      dsimp only
      constructor
      · intro u hu
        have h1 := List.Sublist.mem hu (List.take_sublist _ _)
        have h2 : u ∈ l1 :: ls := by
          by_cases hao : ao
          · rw [if_pos hao] at h1
            cases exc with
            | none =>
              cases inc with
              | none => exact h1
              | some f => exact (List.mem_filter.mp h1).1
            | some g =>
              have h3 := (List.mem_filter.mp h1).1
              cases inc with
              | none => exact h3
              | some f => exact (List.mem_filter.mp h3).1
          · rw [if_neg hao] at h1
            have h3 := (List.mem_filter.mp h1).1
            cases exc with
            | none =>
              cases inc with
              | none => exact h3
              | some f => exact (List.mem_filter.mp h3).1
            | some g =>
              have h4 := (List.mem_filter.mp h3).1
              cases inc with
              | none => exact h4
              | some f => exact (List.mem_filter.mp h4).1
        rw [← hx] at h2
        obtain ⟨⟨href, hcl⟩, _, _⟩ := extractLessonsGo_mem start_url anchors [] u h2
        exact clean_link_ok hb hcl
      · have hnd : (l1 :: ls).Nodup := by
          rw [← hx]
          exact extractLessonsGo_nodup start_url anchors []
        refine List.Sublist.nodup (List.take_sublist _ _) ?_
        by_cases hao : ao
        · rw [if_pos hao]
          cases exc with
          | none =>
            cases inc with
            | none => exact hnd
            | some f => exact List.Nodup.filter _ hnd
          | some g =>
            cases inc with
            | none => exact List.Nodup.filter _ hnd
            | some f => exact List.Nodup.filter _ (List.Nodup.filter _ hnd)
        · rw [if_neg hao]
          cases exc with
          | none =>
            cases inc with
            | none => exact List.Nodup.filter _ hnd
            | some f => exact List.Nodup.filter _ (List.Nodup.filter _ hnd)
          | some g =>
            cases inc with
            | none => exact List.Nodup.filter _ (List.Nodup.filter _ hnd)
            | some f => exact List.Nodup.filter _ (List.Nodup.filter _ (List.Nodup.filter _ hnd))

theorem collectBooksGo_ok (index_url page_url : String) (mb : Nat)
    (hp : goodScheme page_url = true) :
    ∀ (anchors found : List String),
      (∀ u ∈ found, cleanUrlOk u = true) → found.Nodup →
      (∀ u ∈ collectBooksGo index_url page_url mb found anchors, cleanUrlOk u = true) ∧
      (collectBooksGo index_url page_url mb found anchors).Nodup := by
  intro anchors
  induction anchors with
  | nil =>
    intro found h1 h2
    exact ⟨h1, h2⟩
  | cons href rest ih =>
    intro found h1 h2
    rw [collectBooksGo]
    split
    · exact ih found h1 h2
    · rename_i link heq
      split
      · exact ih found h1 h2
      · split
        · exact ih found h1 h2
        · split
          · exact ih found h1 h2
          · split
            · exact ih found h1 h2
            · rename_i hnotmem
              have hf : ∀ u ∈ found ++ [link], cleanUrlOk u = true := by
                intro u hu
                rcases List.mem_append.mp hu with hu1 | hu2
                · exact h1 u hu1
                · rw [List.mem_singleton.mp hu2]
                  exact clean_link_ok hp heq
              have hnd : (found ++ [link]).Nodup := by
                rw [List.nodup_append]
                exact ⟨h2, List.nodup_singleton link, fun a ha hb => by
                  rw [List.mem_singleton.mp hb] at ha
                  exact hnotmem ha⟩
              split
              · exact ⟨hf, hnd⟩
              · exact ih (found ++ [link]) hf hnd

theorem enqueueBooksGo_good (index_url page_url : String) (sad : Bool)
    (hp : goodScheme page_url = true) :
    ∀ (anchors visited : List String) (u : String),
      u ∈ enqueueBooksGo index_url page_url sad visited anchors → goodScheme u = true := by
  intro anchors
  induction anchors with
  | nil =>
    intro visited u h
    exact absurd h (by simp [enqueueBooksGo])
  | cons href rest ih =>
    intro visited u h
    rw [enqueueBooksGo] at h
    split at h
    · exact ih visited u h
    · rename_i link heq
      split at h
      · exact ih visited u h
      · split at h
        · split at h
          · rcases List.mem_cons.mp h with rfl | h2
            · exact goodScheme_of_clean hp heq
            · exact ih visited u h2
          · exact ih visited u h
        · split at h
          · rcases List.mem_cons.mp h with rfl | h2
            · exact goodScheme_of_clean hp heq
            · exact ih visited u h2
          · exact ih visited u h

theorem discoverBooksGo_ok (web : Web) (index_url : String) (sad : Bool) (mb mi : Nat) :
    ∀ (queue visited found : List String),
      (∀ p ∈ queue, goodScheme p = true) →
      (∀ u ∈ found, cleanUrlOk u = true) →
      found.Nodup →
      (∀ u ∈ (discoverBooksGo web index_url sad mb mi queue visited found).1,
        cleanUrlOk u = true) ∧
      (discoverBooksGo web index_url sad mb mi queue visited found).1.Nodup := by
  intro queue visited found
  induction queue, visited, found using discoverBooksGo.induct web index_url sad mb mi with
  | case1 visited found =>
    intro _ h2 h3
    rw [discoverBooksGo]
    exact ⟨h2, h3⟩
  | case2 page_url queue visited found hguard =>
    intro _ h2 h3
    rw [discoverBooksGo, if_pos hguard]
    exact ⟨h2, h3⟩
  | case3 page_url queue visited found hguard hmem ih =>
    intro h1 h2 h3
    rw [discoverBooksGo, if_neg hguard, if_pos hmem]
    exact ih (fun p hp => h1 p (List.mem_cons_of_mem _ hp)) h2 h3
  | case4 page_url queue visited found hguard hmem hnone ih =>
    intro h1 h2 h3
    rw [discoverBooksGo, if_neg hguard, if_neg hmem, hnone]
    exact ih (fun p hp => h1 p (List.mem_cons_of_mem _ hp)) h2 h3
  | case5 page_url queue visited found hguard hmem anchors hweb ih =>
    intro h1 h2 h3
    rw [discoverBooksGo, if_neg hguard, if_neg hmem, hweb]
    have hurl : goodScheme page_url = true := h1 page_url (List.mem_cons_self _ _)
    obtain ⟨hc1, hc2⟩ := collectBooksGo_ok index_url page_url mb hurl anchors found h2 h3
    refine ih ?_ hc1 hc2
    intro p hp
    by_cases hd : (page_url :: visited).length < mi
    · rw [dif_pos hd] at hp
      rcases List.mem_append.mp hp with hp1 | hp2
      · exact h1 p (List.mem_cons_of_mem _ hp1)
      · exact enqueueBooksGo_good index_url page_url sad hurl anchors (page_url :: visited) p hp2
    · rw [dif_neg hd] at hp
      exact h1 p (List.mem_cons_of_mem _ hp)

theorem discover_books_ok (web : Web) (index_url : String) (mb mi : Nat)
    (hb : goodScheme index_url = true) :
    (∀ u ∈ discover_books_from_index web index_url mb mi, cleanUrlOk u = true) ∧
    (discover_books_from_index web index_url mb mi).Nodup := by
  rw [discover_books_from_index, discover_books_core]
  obtain ⟨hok, hnd⟩ := discoverBooksGo_ok web index_url
    (is_author_detail_index_path (pathDecOf index_url)) mb mi [index_url] [] []
    (by
      intro p hp
      rw [List.mem_singleton.mp hp]
      exact hb)
    (by simp) (by simp)
  constructor
  · intro u hu
    exact hok u (List.Sublist.mem hu (List.take_sublist _ _))
  · exact List.Sublist.nodup (List.take_sublist _ _) hnd

/-- Claim C4: every element of a list returned by a discovery run — by
`discover_links` (either phase) or `discover_books_from_index` — is an
absolute URL (it has a parsed scheme), does not use the `mailto:` or `tel:`
scheme, is fragment-stripped (contains no hash), and does not end in a known
asset extension (nor carries one directly before a query string); and no two
elements of a returned list are equal.  The seed/index URL is assumed
well-formed (an absolute non-mailto/tel URL, as the app's inputs are). -/
theorem c4_discovery_output_invariants (web webB : Web) (start_url index_url : String)
    (md : Nat) (ao : Bool) (inc exc : Option (String → Bool)) (mp mb mi : Nat)
    (hb : goodScheme start_url = true) (hbi : goodScheme index_url = true) :
    (∀ u ∈ discover_links web start_url md ao inc exc mp, cleanUrlOk u = true) ∧
    (discover_links web start_url md ao inc exc mp).Nodup ∧
    (∀ u ∈ discover_books_from_index webB index_url mb mi, cleanUrlOk u = true) ∧
    (discover_books_from_index webB index_url mb mi).Nodup := by
  obtain ⟨h1, h2⟩ := discover_links_ok web start_url md ao inc exc mp hb
  obtain ⟨h3, h4⟩ := discover_books_ok webB index_url mb mi hbi
  exact ⟨h1, h2, h3, h4⟩

/-- Claim C4, witness: the invariants instantiated at the concrete discovery
runs used elsewhere in this development. -/
theorem c4_discovery_output_witness :
    goodScheme "http://www.ex.com/books/b1/" = true ∧
    goodScheme "https://h/authors/alice/" = true ∧
    (∀ u ∈ discover_links c1web "http://www.ex.com/books/b1/" 1 true none none 100,
      cleanUrlOk u = true) ∧
    (discover_links c1web "http://www.ex.com/books/b1/" 1 true none none 100).Nodup ∧
    (∀ u ∈ discover_books_from_index c2web "https://h/authors/alice/" 500 20,
      cleanUrlOk u = true) ∧
    (discover_books_from_index c2web "https://h/authors/alice/" 500 20).Nodup := by
  have h := c4_discovery_output_invariants c1web c2web "http://www.ex.com/books/b1/"
    "https://h/authors/alice/" 1 true none none 100 500 20 (by decide) (by decide)
  exact ⟨by decide, by decide, h.1, h.2.1, h.2.2.1, h.2.2.2⟩

end EBanglaEpub
